import Mathlib

/-!
# Bolt minishell: command-chain parsing and execution

A shallow embedding of the parser of `bolt-minishell-05/shell.c`
(`parse_token`, `parse_single_command`, `parse_command_line`), of the chain
helpers of `bolt-minishell-05/command.c` and of the execution engine of
`executor.c` / `execute_node.c` / `builtins.c`.

Conventions of the embedding.

* A C string is a `List Char`; the end of the list is the terminating NUL, and a
  `'\x00'` character inside a list is treated as a terminator as well, exactly
  as the C code would treat that byte.  A `char *` that may be `NULL` is an
  `Option (List Char)`; an argument vector that is `NULL` is the empty list.
* A cursor `const char *` into a line is the suffix of the line that starts at
  the cursor.
* Allocation (`malloc`, `shell_strdup`) is taken to succeed.
* The linked list of nodes hanging off `chain->head` is a `List cmd_node_t`;
  `node->next` is the tail of the list after the node.
-/

namespace Minishell

/-! ## Data model (`shell.h`) -/

/-- The constant `MAX_ARGS` of `shell.h`. -/
def MAX_ARGS : Nat := 64

/-- The constant `MAX_PATH` of `shell.h`. -/
def MAX_PATH : Nat := 256

/-- The enumeration `cmd_type_t` of `shell.h`: the operator that joins a command
to the one that follows it. -/
inductive cmd_type_t where
  | CMD_SIMPLE
  | CMD_AND
  | CMD_OR
  | CMD_PIPE
  | CMD_SEMICOLON
  deriving DecidableEq

open cmd_type_t

/-- The structure `cmd_node_t` of `shell.h` without its `next` pointer, which is
carried by the list the node sits in. -/
structure cmd_node_t where
  command : Option (List Char)
  args : List (List Char)
  argc : Int
  type : cmd_type_t
  input_file : Option (List Char)
  output_file : Option (List Char)
  append_output : Int
  background : Int
  deriving DecidableEq

/-- The structure `command_chain_t` of `shell.h`: `head` is the node list
reached from `chain->head`, `count` the counter field. -/
structure command_chain_t where
  head : List cmd_node_t
  count : Int
  deriving DecidableEq

/-- The structure `shell_context_t` of `shell.h`. -/
structure shell_context_t where
  environ : List (List Char)
  last_exit_status : Int
  current_dir : List Char
  deriving DecidableEq

/-! ## Chain helpers (`bolt-minishell-05/command.c`) -/

/-- Function `create_command_chain`: the empty chain. -/
def create_command_chain : command_chain_t :=
  { head := [], count := 0 }

/-- Function `create_cmd_node`: a node with every field at its default. -/
def create_cmd_node : cmd_node_t :=
  { command := none, args := [], argc := 0, type := CMD_SIMPLE,
    input_file := none, output_file := none, append_output := 0, background := 0 }

/-- Function `add_command_to_chain`: the node is linked after the tail and the
counter is incremented. -/
def add_command_to_chain (chain : command_chain_t) (node : cmd_node_t) : command_chain_t :=
  { head := chain.head ++ [node], count := chain.count + 1 }

/-! ## Tokenizer (`bolt-minishell-05/shell.c`, `parse_token`) -/

/-- The character under a cursor: `*current`, NUL at the end of the string. -/
def peek : List Char → Char
  | [] => '\x00'
  | c :: _ => c

/-- The loop `while (*current && (*current == ' ' || *current == '\t')) current++;`. -/
def skip_blanks : List Char → List Char
  | [] => []
  | c :: cs => if c = ' ' ∨ c = '\t' then skip_blanks cs else c :: cs

/-- The scanning loop of a quoted run,
`while (*current && (*current != quote_char || escaped)) { ... current++; }`:
returns the characters passed over and the cursor where the loop stops. -/
def scan_quoted (quote_char : Char) : Bool → List Char → List Char × List Char
  | _, [] => ([], [])
  | escaped, c :: cs =>
    if c ≠ '\x00' ∧ (c ≠ quote_char ∨ escaped = true) then
      let r := scan_quoted quote_char (if c = '\x5c' ∧ escaped = false then true else false) cs
      (c :: r.1, r.2)
    else ([], c :: cs)

/-- The scanning loop of a regular token,
`while (*current && *current != ' ' && ... && *current != ';') current++;`:
returns the characters passed over and the cursor where the loop stops. -/
def scan_word : List Char → List Char × List Char
  | [] => ([], [])
  | c :: cs =>
    if c ≠ '\x00' ∧ c ≠ ' ' ∧ c ≠ '\t' ∧ c ≠ '\n' ∧ c ≠ '|' ∧ c ≠ '&' ∧ c ≠ ';' then
      let r := scan_word cs
      (c :: r.1, r.2)
    else ([], c :: cs)

/-- What one call of `parse_token` delivers: the returned string (`none` for
`NULL`), the flag written to `*is_operator` and the cursor written to `*input`. -/
structure token_result where
  token : Option (List Char)
  is_operator : Bool
  input : List Char
  deriving DecidableEq

/-- The tail of `parse_token` from the comment "Handle regular tokens" on,
entered with `current` on the first character of the candidate word. -/
def regular_token (current : List Char) : token_result :=
  let r := scan_word current
  if r.1 = [] then { token := none, is_operator := false, input := r.2 }
  else { token := some r.1, is_operator := false, input := r.2 }

/-- Function `parse_token` of `bolt-minishell-05/shell.c`. -/
def parse_token (input : List Char) : token_result :=
  let current := skip_blanks input
  match current with
  | [] => { token := none, is_operator := false, input := current }
  | c :: cs =>
    if c = '\x00' then { token := none, is_operator := false, input := current }
    else if c = '|' then
      if peek cs = '|' then { token := some ['|', '|'], is_operator := true, input := cs.drop 1 }
      else { token := some ['|'], is_operator := true, input := cs }
    else if c = '&' ∧ peek cs = '&' then
      { token := some ['&', '&'], is_operator := true, input := cs.drop 1 }
    else if c = ';' then { token := some [';'], is_operator := true, input := cs }
    else if c = '\x22' ∨ c = '\x27' then
      let r := scan_quoted c false cs
      if peek r.2 = c then { token := some r.1, is_operator := false, input := r.2.drop 1 }
      else regular_token current
    else regular_token current

/-! ## Parser (`bolt-minishell-05/shell.c`) -/

/-- The argument loop of `parse_single_command`,
`while ((token = parse_token(input, &is_operator)) && !is_operator && argc < MAX_ARGS - 1)`,
with `room = MAX_ARGS - 1 - argc`: returns the words stored in `args` and the
cursor left in `*input`.  The token that ends the loop has been consumed. -/
def collect_args : Nat → List Char → List (List Char) × List Char
  | room, input =>
    let t := parse_token input
    match t.token with
    | none => ([], t.input)
    | some token =>
      if t.is_operator then ([], t.input)
      else
        match room with
        | 0 => ([], t.input)
        | room + 1 =>
          let r := collect_args room t.input
          (token :: r.1, r.2)

/-- Function `parse_single_command`: the node built (`none` for `NULL`) and the
cursor left in `*input`. -/
def parse_single_command (input : List Char) : Option cmd_node_t × List Char :=
  let t := parse_token input
  match t.token with
  | none => (none, t.input)
  | some token =>
    if t.is_operator then (none, t.input)
    else
      let node := { create_cmd_node with command := some token }
      let r := collect_args (MAX_ARGS - 1) t.input
      if r.1.length > 0 then
        (some { node with args := r.1, argc := r.1.length }, r.2)
      else (some node, r.2)

/-- The block "Check what comes next" of `parse_command_line`, entered after the
blanks were skipped: the type given to the node and the cursor after the
operator. -/
def join_operator (node : cmd_node_t) (current : List Char) : cmd_node_t × List Char :=
  if peek current ≠ '\x00' then
    if peek current = '|' ∧ peek (current.drop 1) ≠ '|' then
      ({ node with type := CMD_PIPE }, current.drop 1)
    else if peek current = '&' ∧ peek (current.drop 1) = '&' then
      ({ node with type := CMD_AND }, current.drop 2)
    else if peek current = '|' ∧ peek (current.drop 1) = '|' then
      ({ node with type := CMD_OR }, current.drop 2)
    else if peek current = ';' then
      ({ node with type := CMD_SEMICOLON }, current.drop 1)
    else (node, current)
  else (node, current)

/-- One pass through the body of `while (*current)` in `parse_command_line`,
the loop test included: `Sum.inl` is the state at the next loop test,
`Sum.inr` the chain with which the loop is left. -/
def parse_iter (current : List Char) (chain : command_chain_t) :
    Sum (List Char × command_chain_t) command_chain_t :=
  if peek current = '\x00' then Sum.inr chain
  else
    let current := skip_blanks current
    if peek current = '\x00' then Sum.inr chain
    else
      match parse_single_command current with
      | (none, _) => Sum.inr chain
      | (some node, current) =>
        let r := join_operator node (skip_blanks current)
        Sum.inl (r.2, add_command_to_chain chain r.1)

/-- The loop of `parse_command_line`, run for at most `fuel` passes; `none`
when the passes are used up before the loop is left. -/
def parse_loop : Nat → List Char → command_chain_t → Option command_chain_t
  | 0, _, _ => none
  | fuel + 1, current, chain =>
    match parse_iter current chain with
    | Sum.inl s => parse_loop fuel s.1 s.2
    | Sum.inr chain => some chain

/-- Function `parse_command_line` of `bolt-minishell-05/shell.c`.  Every pass
that stays in the loop moves the cursor forward, so one pass per character
plus one is enough. -/
def parse_command_line (line : List Char) : Option command_chain_t :=
  parse_loop (line.length + 1) line create_command_chain

/-! ## Process model

The code is followed inside one process.  Every call into the C library or
the kernel is a `syscall`; its outcome is read from a tape of replies held in
the machine state, one reply per call, so that every behaviour of the
environment is some tape.  `fork` replies `0` in the child, a positive pid in
the parent and a negative value on failure, and the code is followed on the
side the reply selects. -/

/-- File descriptors named in the code. -/
inductive fd_t where
  | STDIN_FILENO
  | STDOUT_FILENO
  | STDERR_FILENO
  | pipe_fd (i : Nat)
  | fileno (path : List Char)
  deriving DecidableEq

/-- Calls into the C library and the kernel made by the code. -/
inductive syscall where
  | fork
  | pipe
  | waitpid (pid : Int)
  | execvp (file : Option (List Char)) (args : List (List Char))
  | fopen (path : List Char) (mode : List Char)
  | fclose (path : List Char)
  | dup2 (oldfd newfd : fd_t)
  | close (fd : fd_t)
  | chdir (dir : List Char)
  | getcwd (size : Nat)
  | getenv (name : List Char)
  | write (fd : fd_t) (text : List Char)
  | perror (s : List Char)
  deriving DecidableEq

/-- The outcome of one call: `ret` is the value returned (for a call that
returns a pointer, `0` stands for `NULL`), `out` the value found afterwards in
the `int` the call writes through a pointer (the `status` of `waitpid`), `text`
the string delivered (`getenv`, `getcwd`). -/
structure reply where
  ret : Int
  out : Int
  text : List Char
  deriving DecidableEq

/-- What is recorded of a run, in order: the calls made, and the entries into
`execute_single_command` and `execute_piped_commands`. -/
inductive event where
  | sys (call : syscall)
  | single (cmd : cmd_node_t)
  | piped (cmd1 cmd2 : cmd_node_t)
  deriving DecidableEq

/-- The state of the process: the Shell Context `*ctx`, the global `environ`
(`none` for `NULL`), the replies the environment will give, and the record of
what was done so far. -/
structure Machine where
  ctx : shell_context_t
  environ : Option (List (List Char))
  tape : List reply
  log : List event
  deriving DecidableEq

/-- How a piece of code ends in the process that runs it: it returns a value,
the process ends in `exit(code)`, the process image is replaced by a successful
`execvp`, or the model ran out of fuel. -/
inductive Res (α : Type) where
  | ok (a : α) (m : Machine)
  | exited (code : Int) (m : Machine)
  | replaced (m : Machine)
  | unfinished
  deriving DecidableEq

/-- A piece of code run on a machine state. -/
def Proc (α : Type) : Type := Machine → Res α

/-- Sequencing: the second piece runs only when the first one returns. -/
def Proc.bind {α β : Type} (x : Proc α) (f : α → Proc β) : Proc β :=
  fun m =>
    match x m with
    | Res.ok a m1 => f a m1
    | Res.exited code m1 => Res.exited code m1
    | Res.replaced m1 => Res.replaced m1
    | Res.unfinished => Res.unfinished

instance : Monad Proc where
  pure := fun a m => Res.ok a m
  bind := Proc.bind

/-- A piece of code that never stops for lack of fuel. -/
def Proc.finishes {α : Type} (x : Proc α) : Prop := ∀ m, x m ≠ Res.unfinished

/-- The reply used when the tape is empty. -/
def reply.none : reply := { ret := 0, out := 0, text := [] }

/-- One call: it is recorded, and its reply is taken from the tape. -/
def sys (call : syscall) : Proc reply :=
  fun m =>
    match m with
    | { ctx := ctx, environ := environ, tape := [], log := log } =>
      Res.ok reply.none
        { ctx := ctx, environ := environ, tape := [], log := log ++ [event.sys call] }
    | { ctx := ctx, environ := environ, tape := r :: tape, log := log } =>
      Res.ok r { ctx := ctx, environ := environ, tape := tape, log := log ++ [event.sys call] }

/-- A record entry. -/
def note (e : event) : Proc Unit :=
  fun m =>
    match m with
    | { ctx := ctx, environ := environ, tape := tape, log := log } =>
      Res.ok () { ctx := ctx, environ := environ, tape := tape, log := log ++ [e] }

/-- The call `exit(code)`. -/
def sys_exit {α : Type} (code : Int) : Proc α :=
  fun m => Res.exited code m

/-- The call `execvp(file, argv)`, `args` being `argv` without `argv[0]`: it
returns (with `-1`) only when it fails. -/
def sys_execvp (file : Option (List Char)) (args : List (List Char)) : Proc Unit :=
  fun m =>
    match sys (syscall.execvp file args) m with
    | Res.ok r m1 => if r.ret = -1 then Res.ok () m1 else Res.replaced m1
    | Res.exited code m1 => Res.exited code m1
    | Res.replaced m1 => Res.replaced m1
    | Res.unfinished => Res.unfinished

/-- The state left by `ctx->last_exit_status = status`. -/
def Machine.with_status (m : Machine) (status : Int) : Machine :=
  match m with
  | { ctx := { environ := e, last_exit_status := _, current_dir := d }, environ := environ,
      tape := tape, log := log } =>
    { ctx := { environ := e, last_exit_status := status, current_dir := d }, environ := environ,
      tape := tape, log := log }

/-- The assignment `ctx->last_exit_status = status`. -/
def set_last_exit_status (status : Int) : Proc Unit :=
  fun m => Res.ok () (m.with_status status)

/-- The macro `WEXITSTATUS` of `<sys/wait.h>`: bits 8 to 15 of the status. -/
def WEXITSTATUS (status : Int) : Int := (status / 256) % 256

/-- The part of a list that C reads as a string: what precedes the first NUL. -/
def cstr (s : List Char) : List Char := s.takeWhile (fun c => c ≠ '\x00')

/-- The test `strcmp(a, b) == 0`. -/
def streq (a b : List Char) : Bool := cstr a = cstr b

/-- What `printf("%s", s)` prints for a possibly `NULL` string (glibc prints
`(null)` for `NULL`). -/
def fmt_s : Option (List Char) → List Char
  | some s => cstr s
  | none => "(null)".toList

/-- What `printf("%d", n)` prints. -/
def fmt_d (n : Int) : List Char := (toString n).toList

/-! ## Builtins (`builtins.c`) -/

/-- The part of `builtin_cd` from `chdir(dir)` on. -/
def builtin_cd_to (dir : List Char) : Proc Int := do
  let r ← sys (syscall.chdir dir)
  if r.ret ≠ 0 then do
    let _ ← sys (syscall.perror "cd".toList)
    pure 1
  else do
    let g ← sys (syscall.getcwd MAX_PATH)
    if g.ret = 0 then do
      let _ ← sys (syscall.perror "getcwd".toList)
      pure 1
    else
      fun m => Res.ok 0 { m with ctx := { m.ctx with current_dir := g.text } }

/-- Function `builtin_cd`.  When `getcwd` fails the buffer `ctx->current_dir`
is taken to be left as it was. -/
def builtin_cd (args : List (List Char)) : Proc Int :=
  match args with
  | [] => do
    let h ← sys (syscall.getenv "HOME".toList)
    if h.ret = 0 then do
      let _ ← sys (syscall.write fd_t.STDERR_FILENO "cd: HOME not set\n".toList)
      pure 1
    else builtin_cd_to h.text
  | dir :: _ => builtin_cd_to dir

/-- Function `builtin_pwd`. -/
def builtin_pwd (_args : List (List Char)) : Proc Int := do
  let g ← sys (syscall.getcwd MAX_PATH)
  if g.ret ≠ 0 then do
    let _ ← sys (syscall.write fd_t.STDOUT_FILENO (cstr g.text ++ ['\n']))
    pure 0
  else do
    let _ ← sys (syscall.perror "pwd".toList)
    pure 1

/-- The statement `if (i > start) printf(" ");` of `builtin_echo`, `first`
telling whether `i == start`. -/
def echo_separator (first : Bool) : Proc Unit :=
  if first = false then do
    let _ ← sys (syscall.write fd_t.STDOUT_FILENO [' '])
    pure ()
  else pure ()

/-- The printing loop of `builtin_echo`, `first` telling whether `i == start`. -/
def echo_loop : Bool → List (List Char) → Proc Unit
  | _, [] => pure ()
  | first, a :: rest => do
    echo_separator first
    let _ ← sys (syscall.write fd_t.STDOUT_FILENO (cstr a))
    echo_loop false rest

/-- Function `builtin_echo`. -/
def builtin_echo (args : List (List Char)) : Proc Int := do
  let flag : Bool :=
    match args with
    | a :: _ => streq a "-n".toList
    | [] => false
  echo_loop true (if flag then args.drop 1 else args)
  if flag = false then do
    let _ ← sys (syscall.write fd_t.STDOUT_FILENO ['\n'])
    pure 0
  else pure 0

/-- The loop of `builtin_env` over the entries of `environ`. -/
def env_loop : List (List Char) → Proc Unit
  | [] => pure ()
  | e :: rest => do
    let _ ← sys (syscall.write fd_t.STDOUT_FILENO (cstr e ++ ['\n']))
    env_loop rest

/-- Function `builtin_env`. -/
def builtin_env (_args : List (List Char)) : Proc Int :=
  fun m =>
    match m.environ with
    | none => Res.ok 1 m
    | some env => (do env_loop env; pure 0 : Proc Int) m

/-- The test `isspace(c)` in the C locale. -/
def isspace (c : Char) : Bool :=
  c = ' ' ∨ c = '\t' ∨ c = '\n' ∨ c = '\x0b' ∨ c = '\x0c' ∨ c = '\r'

/-- The digit loop of `atoi`. -/
def atoi_digits : Int → List Char → Int
  | acc, [] => acc
  | acc, c :: cs =>
    if '0' ≤ c ∧ c ≤ '9' then atoi_digits (acc * 10 + ((c.toNat : Int) - 48)) cs else acc

/-- The libc function `atoi`, without the overflow of `int`: blanks, an
optional sign, then decimal digits. -/
def atoi (s : List Char) : Int :=
  match (cstr s).dropWhile isspace with
  | '-' :: t => - atoi_digits 0 t
  | '+' :: t => atoi_digits 0 t
  | t => atoi_digits 0 t

/-- Function `builtin_exit`: it does not return. -/
def builtin_exit (args : List (List Char)) : Proc Int :=
  fun m =>
    let exit_code : Int :=
      match args with
      | a :: _ => atoi a
      | [] => m.ctx.last_exit_status
    (do
      let _ ← sys (syscall.write fd_t.STDOUT_FILENO "exit\n".toList)
      sys_exit exit_code : Proc Int) m

/-! ## Execution engine (`executor.c`) -/

/-- Function `is_builtin_command`. -/
def is_builtin_command (command : List Char) : Int :=
  if ["cd".toList, "pwd".toList, "echo".toList, "env".toList, "exit".toList].any
      (fun b => streq command b) then 1 else 0

/-- Function `execute_builtin_command`, entered with `cmd->command` not `NULL`. -/
def execute_builtin_command (cmd : cmd_node_t) (command : List Char) : Proc Int :=
  if streq command "cd".toList then builtin_cd cmd.args
  else if streq command "pwd".toList then builtin_pwd cmd.args
  else if streq command "echo".toList then builtin_echo cmd.args
  else if streq command "env".toList then builtin_env cmd.args
  else if streq command "exit".toList then builtin_exit cmd.args
  else pure 1

/-- The vector `exec_args` without its first entry: `cmd->args[0 .. argc - 1]`. -/
def exec_args (cmd : cmd_node_t) : List (List Char) :=
  cmd.args.take cmd.argc.toNat

/-- The end of a child: `execvp`, and when it returns the message and
`exit(127)`. -/
def exec_or_die {α : Type} (cmd : cmd_node_t) : Proc α := do
  sys_execvp cmd.command (exec_args cmd)
  let _ ← sys (syscall.write fd_t.STDERR_FILENO (fmt_s cmd.command ++ ": command not found\n".toList))
  sys_exit 127

/-- The input redirection of the child in `execute_external_command`. -/
def redirect_input (cmd : cmd_node_t) : Proc Unit :=
  match cmd.input_file with
  | none => pure ()
  | some path => do
    let f ← sys (syscall.fopen path "r".toList)
    if f.ret = 0 then do
      let _ ← sys (syscall.perror path)
      sys_exit 1
    else do
      let _ ← sys (syscall.dup2 (fd_t.fileno path) fd_t.STDIN_FILENO)
      let _ ← sys (syscall.fclose path)
      pure ()

/-- The output redirection of the child in `execute_external_command`. -/
def redirect_output (cmd : cmd_node_t) : Proc Unit :=
  match cmd.output_file with
  | none => pure ()
  | some path => do
    let f ← sys (syscall.fopen path (if cmd.append_output ≠ 0 then "a".toList else "w".toList))
    if f.ret = 0 then do
      let _ ← sys (syscall.perror path)
      sys_exit 1
    else do
      let _ ← sys (syscall.dup2 (fd_t.fileno path) fd_t.STDOUT_FILENO)
      let _ ← sys (syscall.fclose path)
      pure ()

/-- Function `execute_external_command`. -/
def execute_external_command (cmd : cmd_node_t) : Proc Int := do
  let pid ← sys syscall.fork
  if pid.ret = 0 then do
    redirect_input cmd
    redirect_output cmd
    exec_or_die cmd
  else if pid.ret > 0 then
    if cmd.background = 0 then do
      let w ← sys (syscall.waitpid pid.ret)
      pure (WEXITSTATUS w.out)
    else do
      let _ ← sys (syscall.write fd_t.STDOUT_FILENO
        ("[".toList ++ fmt_d pid.ret ++ "] ".toList ++ fmt_s cmd.command ++ ['\n']))
      pure 0
  else do
    let _ ← sys (syscall.perror "fork".toList)
    pure 1

/-- Function `execute_single_command`. -/
def execute_single_command (cmd : cmd_node_t) : Proc Int := do
  note (event.single cmd)
  match cmd.command with
  | none => pure 1
  | some command =>
    if is_builtin_command command ≠ 0 then execute_builtin_command cmd command
    else execute_external_command cmd

/-- Function `execute_piped_commands` of `executor.c`. -/
def execute_piped_commands (cmd1 cmd2 : cmd_node_t) : Proc Int := do
  note (event.piped cmd1 cmd2)
  let p ← sys syscall.pipe
  if p.ret = -1 then do
    let _ ← sys (syscall.perror "pipe".toList)
    pure 1
  else do
    let pid1 ← sys syscall.fork
    if pid1.ret = 0 then do
      let _ ← sys (syscall.close (fd_t.pipe_fd 0))
      let _ ← sys (syscall.dup2 (fd_t.pipe_fd 1) fd_t.STDOUT_FILENO)
      let _ ← sys (syscall.close (fd_t.pipe_fd 1))
      exec_or_die cmd1
    else do
      let pid2 ← sys syscall.fork
      if pid2.ret = 0 then do
        let _ ← sys (syscall.close (fd_t.pipe_fd 1))
        let _ ← sys (syscall.dup2 (fd_t.pipe_fd 0) fd_t.STDIN_FILENO)
        let _ ← sys (syscall.close (fd_t.pipe_fd 0))
        exec_or_die cmd2
      else do
        let _ ← sys (syscall.close (fd_t.pipe_fd 0))
        let _ ← sys (syscall.close (fd_t.pipe_fd 1))
        let _ ← sys (syscall.waitpid pid1.ret)
        let w2 ← sys (syscall.waitpid pid2.ret)
        pure (WEXITSTATUS w2.out)

/-- How one pass through the loop of `execute_command_chain` ends: at the next
loop test with a new cursor and `last_status`, or out of the loop with the
value `execute_command_chain` returns. -/
inductive loop_step where
  | next (current : List cmd_node_t) (last_status : Int)
  | done (status : Int)
  deriving DecidableEq

/-- One pass through `while (current) { ... }` in `execute_command_chain`, the
loop test included; `current` is the list of nodes from the cursor on. -/
def chain_iter (current : List cmd_node_t) (last_status : Int) : Proc loop_step :=
  match current with
  | [] => pure (loop_step.done last_status)
  | cur :: next =>
    match decide (cur.type = CMD_PIPE), next with
    | true, nxt :: after => do
      let last_status ← execute_piped_commands cur nxt
      set_last_exit_status last_status
      pure (loop_step.next after last_status)
    | _, _ => do
      let last_status ← execute_single_command cur
      if next ≠ [] ∧ ((cur.type = CMD_AND ∧ last_status ≠ 0) ∨
          (cur.type = CMD_OR ∧ last_status = 0)) then
        pure (loop_step.done last_status)
      else do
        set_last_exit_status last_status
        pure (loop_step.next next last_status)

/-- The loop of `execute_command_chain`, run for at most `fuel` passes. -/
def chain_loop : Nat → List cmd_node_t → Int → Proc Int
  | 0, _, _ => fun _ => Res.unfinished
  | fuel + 1, current, last_status => do
    let step ← chain_iter current last_status
    match step with
    | loop_step.next current last_status => chain_loop fuel current last_status
    | loop_step.done status => pure status

/-- Function `execute_command_chain` of `executor.c`, for a chain pointer that is
not `NULL`.  Every pass moves the cursor at least one node on, so one pass per
node plus one for the final loop test is enough. -/
def execute_command_chain (chain : command_chain_t) : Proc Int :=
  if chain.head = [] then pure 0
  else chain_loop (chain.head.length + 1) chain.head 0

/-- The loop state `(current, last_status, machine)` found at the loop test of
`execute_command_chain` after `k` passes, `none` when the loop was left (or the
process ended) before. -/
def chain_state : Nat → List cmd_node_t → Int → Machine → Option (List cmd_node_t × Int × Machine)
  | 0, current, last_status, m => some (current, last_status, m)
  | k + 1, current, last_status, m =>
    match chain_iter current last_status m with
    | Res.ok (loop_step.next current1 last_status1) m1 => chain_state k current1 last_status1 m1
    | _ => none




/-! ## The variant of `execute_node.c` -/

namespace ExecuteNode

/-- Function `execute_piped_commands` of `execute_node.c`, the call of
`execute_node` in the children being the parameter `execute_node`.  A node
pointer is the list of nodes from that node on, `NULL` the empty list. -/
def execute_piped_commands_body (execute_node : List cmd_node_t → Proc Int)
    (cmd1 cmd2 : List cmd_node_t) : Proc Int :=
  match cmd1, cmd2 with
  | c1 :: _, c2 :: _ => do
    note (event.piped c1 c2)
    let p ← sys syscall.pipe
    if p.ret = -1 then do
      let _ ← sys (syscall.perror "pipe".toList)
      pure 1
    else do
      let pid1 ← sys syscall.fork
      if pid1.ret < 0 then do
        let _ ← sys (syscall.perror "fork".toList)
        let _ ← sys (syscall.close (fd_t.pipe_fd 0))
        let _ ← sys (syscall.close (fd_t.pipe_fd 1))
        pure 1
      else if pid1.ret = 0 then do
        let _ ← sys (syscall.dup2 (fd_t.pipe_fd 1) fd_t.STDOUT_FILENO)
        let _ ← sys (syscall.close (fd_t.pipe_fd 0))
        let _ ← sys (syscall.close (fd_t.pipe_fd 1))
        execute_node cmd1
      else do
        let pid2 ← sys syscall.fork
        if pid2.ret < 0 then do
          let _ ← sys (syscall.perror "fork".toList)
          let _ ← sys (syscall.close (fd_t.pipe_fd 0))
          let _ ← sys (syscall.close (fd_t.pipe_fd 1))
          pure 1
        else if pid2.ret = 0 then do
          let _ ← sys (syscall.dup2 (fd_t.pipe_fd 0) fd_t.STDIN_FILENO)
          let _ ← sys (syscall.close (fd_t.pipe_fd 0))
          let _ ← sys (syscall.close (fd_t.pipe_fd 1))
          execute_node cmd2
        else do
          let _ ← sys (syscall.close (fd_t.pipe_fd 0))
          let _ ← sys (syscall.close (fd_t.pipe_fd 1))
          let _ ← sys (syscall.waitpid pid1.ret)
          let w ← sys (syscall.waitpid pid2.ret)
          pure (WEXITSTATUS w.out)
  | _, _ => pure 1

/-- Function `execute_node` of `execute_node.c`, followed through at most `fuel`
nested calls of itself. -/
def execute_node : Nat → List cmd_node_t → Proc Int
  | 0, _ => fun _ => Res.unfinished
  | _ + 1, [] => pure 1
  | fuel + 1, node :: next =>
    match node.command with
    | none => pure 1
    | some command =>
      if is_builtin_command command ≠ 0 then execute_builtin_command node command
      else if node.type = CMD_PIPE ∧ next ≠ [] then
        execute_piped_commands_body (execute_node fuel) (node :: next) next
      else execute_external_command node

/-- Function `execute_piped_commands` of `execute_node.c`, its children
following `execute_node` through at most `fuel` nested calls. -/
def execute_piped_commands (fuel : Nat) (cmd1 cmd2 : List cmd_node_t) : Proc Int :=
  execute_piped_commands_body (execute_node fuel) cmd1 cmd2

end ExecuteNode

/-! ## Pipelines taken two commands at a time -/

/-- Follows the amended wording of the pipeline claim, not the source: the
commands of a chain are taken two at a time, each pair run as a two-stage
pipeline whose status is stored, and a command left alone at the end is run as
a single command. -/
def run_in_pairs : List cmd_node_t → Int → Proc Int
  | [], last_status => pure last_status
  | [c], _ => do
    let status ← execute_single_command c
    set_last_exit_status status
    pure status
  | c1 :: c2 :: rest, _ => do
    let status ← execute_piped_commands c1 c2
    set_last_exit_status status
    run_in_pairs rest status

/-! ## The tokenizer of `bolt-minishell-04/shell.c` -/

namespace Draft04

/-- The scanning loop of a regular token in `bolt-minishell-04`,
`while (*current && *current != ' ' && *current != '\t' && *current != '\n') current++;`. -/
def scan_word : List Char → List Char × List Char
  | [] => ([], [])
  | c :: cs =>
    if c ≠ '\x00' ∧ c ≠ ' ' ∧ c ≠ '\t' ∧ c ≠ '\n' then
      let r := scan_word cs
      (c :: r.1, r.2)
    else ([], c :: cs)

/-- The tail of `parse_token` of `bolt-minishell-04` from the comment "Handle
regular tokens" on: the returned string and the cursor written to `*input`. -/
def regular_token (current : List Char) : Option (List Char) × List Char :=
  let r := scan_word current
  if r.1 = [] then (none, r.2) else (some r.1, r.2)

/-- Function `parse_token` of `bolt-minishell-04/shell.c`: the returned string
(`none` for `NULL`) and the cursor written to `*input`. -/
def parse_token (input : List Char) : Option (List Char) × List Char :=
  let current := skip_blanks input
  match current with
  | [] => (none, current)
  | c :: cs =>
    if c = '\x00' then (none, current)
    else if c = '\x22' ∨ c = '\x27' then
      let r := scan_quoted c false cs
      if peek r.2 = c then (some r.1, r.2.drop 1)
      else regular_token current
    else regular_token current

/-- The characters at which the scanning loop of a regular token stops in
`bolt-minishell-04`: NUL, blank, tab and newline. -/
def word_end (c : Char) : Bool :=
  decide (c = '\x00' ∨ c = ' ' ∨ c = '\t' ∨ c = '\n')

end Draft04

/-! ## The placeholder parser of `shell.c` -/

namespace ShellC

/-- The skipping of leading delimiters by `strtok(s, " \t\n")`. -/
def strtok_skip : List Char → List Char
  | [] => []
  | c :: cs => if c = ' ' ∨ c = '\t' ∨ c = '\n' then strtok_skip cs else c :: cs

/-- The scan of one token by `strtok(s, " \t\n")`: the characters of the token
and the cursor on the delimiter or NUL that ends it. -/
def strtok_scan : List Char → List Char × List Char
  | [] => ([], [])
  | c :: cs =>
    if c ≠ '\x00' ∧ c ≠ ' ' ∧ c ≠ '\t' ∧ c ≠ '\n' then
      let r := strtok_scan cs
      (c :: r.1, r.2)
    else ([], c :: cs)

/-- One call of the libc function `strtok` with the delimiters `" \t\n"` on the
text left by the previous call: the token (`none` for `NULL`) and the text
left for the next call. -/
def strtok (s : List Char) : Option (List Char) × List Char :=
  let s := strtok_skip s
  if peek s = '\x00' then (none, s)
  else
    let r := strtok_scan s
    (some r.1, if peek r.2 = '\x00' then r.2 else r.2.drop 1)

/-- The argument loop of `parse_command_line` of `shell.c`,
`while ((token = strtok(NULL, " \t\n")) && argc < MAX_ARGS - 1)`, with
`room = MAX_ARGS - 1 - argc`. -/
def collect_args : Nat → List Char → List (List Char)
  | room, s =>
    match strtok s with
    | (none, _) => []
    | (some token, rest) =>
      match room with
      | 0 => []
      | room + 1 => token :: collect_args room rest

/-- Function `parse_command_line` of `shell.c`, `create_command_node` being taken
to set the same defaults as `create_cmd_node`. -/
def parse_command_line (line : List Char) : command_chain_t :=
  match strtok (cstr line) with
  | (none, _) => create_command_chain
  | (some token, rest) =>
    let node := { create_cmd_node with command := some token }
    let args := collect_args (MAX_ARGS - 1) rest
    if args.length > 0 then
      add_command_to_chain create_command_chain { node with args := args, argc := args.length }
    else add_command_to_chain create_command_chain node

end ShellC

/-! ## What a run wrote to standard output -/

/-- The text written to standard output by the calls of a record, in order. -/
def stdout_text : List event → List Char
  | [] => []
  | event.sys (syscall.write fd_t.STDOUT_FILENO text) :: rest => text ++ stdout_text rest
  | _ :: rest => stdout_text rest

/-- Follows the wording of the claim about `echo`, not the source: the arguments
joined by single spaces and a newline, or, when the first argument is `-n`, the
remaining arguments joined by single spaces. -/
def echo_text (args : List (List Char)) : List Char :=
  match args with
  | a :: rest =>
    if a = ['-', 'n'] then List.intercalate [' '] rest
    else List.intercalate [' '] args ++ ['\n']
  | [] => ['\n']

/-- The line made of a first word and further words, each after its separator. -/
def words_line (first : List Char) (rest : List (List Char × List Char)) : List Char :=
  first ++ (rest.map (fun p => p.1 ++ p.2)).flatten

/-! ## The commands a run handed to the runners -/

/-- The commands started according to a record, in order: a command is started
when it is handed to `execute_single_command`, or to `execute_piped_commands`
as one of its two stages. -/
def started : List event → List cmd_node_t
  | [] => []
  | event.single cmd :: rest => cmd :: started rest
  | event.piped cmd1 cmd2 :: rest => cmd1 :: cmd2 :: started rest
  | event.sys _ :: rest => started rest

/-- The machine a piece of code ends with, `none` when the model ran out of
fuel. -/
def Res.machine {α : Type} : Res α → Option Machine
  | Res.ok _ m => some m
  | Res.exited _ m => some m
  | Res.replaced m => some m
  | Res.unfinished => none

/-- The exit code of a process that ended by `exit(code)`, as the parent reads
it from `wait`: the low eight bits of `code` (`code & 0377`). -/
def exit_code (code : Int) : Int := code % 256

/-- The exit code with which a piece of code ended the process, `none` when it
did not end it by `exit`. -/
def Res.exit_code {α : Type} : Res α → Option Int
  | Res.exited code _ => some (Minishell.exit_code code)
  | _ => none

/-- A piece of code that starts exactly the commands `cmds`, in order, however
it ends. -/
def Proc.starts {α : Type} (x : Proc α) (cmds : List cmd_node_t) : Prop :=
  ∀ m m1, (x m).machine = some m1 → started m1.log = started m.log ++ cmds

/-! ## Ends of unquoted words -/

/-- The characters at which the scanning loop of a regular token stops: NUL,
blank, tab, newline, `|`, `&` and `;`. -/
def word_end (c : Char) : Bool :=
  decide (c = '\x00' ∨ c = ' ' ∨ c = '\t' ∨ c = '\n' ∨ c = '|' ∨ c = '&' ∨ c = ';')

/-- The fields a node has from `create_cmd_node` on and the parser never writes:
a program name is present, there is no redirection and no background flag. -/
def parsed_fields (node : cmd_node_t) : Prop :=
  node.command ≠ none ∧ node.input_file = none ∧ node.output_file = none ∧
    node.append_output = 0 ∧ node.background = 0

/-- Follows the wording of the claim about parsed commands, not the source:
`execute_external_command` without its redirection and background branches. -/
def execute_foreground_command (cmd : cmd_node_t) : Proc Int := do
  let pid ← sys syscall.fork
  if pid.ret = 0 then exec_or_die cmd
  else if pid.ret > 0 then do
    let w ← sys (syscall.waitpid pid.ret)
    pure (WEXITSTATUS w.out)
  else do
    let _ ← sys (syscall.perror "fork".toList)
    pure 1

/-! ## The chain as linked cells in memory (`bolt-minishell-05/command.c`) -/

namespace Linked

/-- A `cmd_node_t` in memory: its fields other than `next`, and its `next`
pointer (`none` for `NULL`). -/
structure cell where
  node : cmd_node_t
  next : Option Nat

/-- The memory that holds the nodes: the cell found at each address, `none`
where no node is allocated. -/
def Heap : Type := Nat → Option cell

/-- The structure `command_chain_t` with its pointers. -/
structure chain_t where
  head : Option Nat
  tail : Option Nat
  count : Int
  deriving DecidableEq

/-- Function `create_command_chain`. -/
def create_command_chain : chain_t :=
  { head := none, tail := none, count := 0 }

/-- Function `create_cmd_node`, `addr` being the address `malloc` returned: the
cell written there. -/
def create_cmd_node (heap : Heap) (addr : Nat) : Heap :=
  fun a => if a = addr then some { node := Minishell.create_cmd_node, next := none } else heap a

/-- Function `add_command_to_chain` on a chain pointer that is not `NULL`; the
result is `none` when the code would write through a pointer that is `NULL` or
points to no node. -/
def add_command_to_chain (heap : Heap) (chain : chain_t) (node : Option Nat) :
    Option (Heap × chain_t) :=
  match node with
  | none => some (heap, chain)
  | some n =>
    match chain.head with
    | none => some (heap, { head := some n, tail := some n, count := chain.count + 1 })
    | some hd =>
      match chain.tail with
      | none => none
      | some t =>
        match heap t with
        | none => none
        | some c =>
          some (fun a => if a = t then some { node := c.node, next := some n } else heap a,
            { head := some hd, tail := some n, count := chain.count + 1 })

/-- The calls `add_command_to_chain(chain, n)` for the addresses of a list, in
order. -/
def add_all : List Nat → Heap × chain_t → Option (Heap × chain_t)
  | [], s => some s
  | n :: rest, s =>
    match add_command_to_chain s.1 s.2 (some n) with
    | none => none
    | some s1 => add_all rest s1

/-- The addresses met from a pointer on by following `next` until `NULL`, in at
most `fuel` steps. -/
def nodes_from : Nat → Heap → Option Nat → Option (List Nat)
  | _, _, none => some []
  | 0, _, some _ => none
  | fuel + 1, heap, some a =>
    match heap a with
    | none => none
    | some c => (nodes_from fuel heap c.next).map (fun l => a :: l)

/-- The cells at the addresses of a list are linked in the order of the list,
the last one having `next == NULL`. -/
def chained (heap : Heap) : List Nat → Prop
  | [] => True
  | [a] => ∃ c, heap a = some c ∧ c.next = none
  | a :: b :: rest => (∃ c, heap a = some c ∧ c.next = some b) ∧ chained heap (b :: rest)

/-- A memory with default nodes at the addresses 10, 20 and 30. -/
def sample_heap : Heap :=
  create_cmd_node (create_cmd_node (create_cmd_node (fun _ => none) 10) 20) 30

end Linked

/-! ## Shapes of input lines -/

/-- A blank or a tab. -/
def is_blank (c : Char) : Prop := c = ' ' ∨ c = '\t'

/-- A run of blanks and tabs, possibly empty. -/
def blanks (bl : List Char) : Prop := ∀ c ∈ bl, is_blank c

/-- A character that is not NUL, blank, tab, newline, `|`, `&`, `;` or a quote. -/
def plain_char (c : Char) : Prop :=
  c ≠ '\x00' ∧ c ≠ ' ' ∧ c ≠ '\t' ∧ c ≠ '\n' ∧ c ≠ '|' ∧ c ≠ '&' ∧ c ≠ ';' ∧
    c ≠ '\x22' ∧ c ≠ '\x27'

/-- A plain word: at least one character, all of them plain. -/
def plain_word (w : List Char) : Prop := w ≠ [] ∧ ∀ c ∈ w, plain_char c

/-- The join-operator an operator text stands for; `none` when the text is not
one of `;`, `&&`, `||`, `|`. -/
def operator_type (op : List Char) : Option cmd_type_t :=
  if op = [';'] then some CMD_SEMICOLON
  else if op = ['&', '&'] then some CMD_AND
  else if op = ['|', '|'] then some CMD_OR
  else if op = ['|'] then some CMD_PIPE
  else none

instance (c : Char) : Decidable (is_blank c) := by unfold is_blank; infer_instance

instance (bl : List Char) : Decidable (blanks bl) := by unfold blanks; infer_instance

instance (c : Char) : Decidable (plain_char c) := by unfold plain_char; infer_instance

instance (w : List Char) : Decidable (plain_word w) := by unfold plain_word; infer_instance

/-! ## Sample values -/

/-- A node with a command name and a join-operator, no arguments and every other
field as `create_cmd_node` sets it. -/
def plain_node (name : List Char) (type : cmd_type_t) : cmd_node_t :=
  { create_cmd_node with command := some name, type := type }

/-- The node of a command with a name and arguments, every other field as
`create_cmd_node` sets it. -/
def word_node (name : List Char) (args : List (List Char)) : cmd_node_t :=
  { create_cmd_node with command := some name, args := args, argc := args.length }

/-- The five names of the builtin commands. -/
def builtin_names : List (List Char) :=
  ["cd".toList, "pwd".toList, "echo".toList, "env".toList, "exit".toList]

/-- The machine of the first child of `execute_piped_commands` of
`execute_node.c` when it calls `execute_node`: five replies were read (`pipe`,
`fork`, `dup2`, two `close`), six entries recorded. -/
def in_first_child (m : Machine) (cmd1 cmd2 : cmd_node_t) (rest : List reply) : Machine :=
  { ctx := m.ctx, environ := m.environ, tape := rest,
    log := m.log ++ [event.piped cmd1 cmd2, event.sys syscall.pipe, event.sys syscall.fork,
      event.sys (syscall.dup2 (fd_t.pipe_fd 1) fd_t.STDOUT_FILENO),
      event.sys (syscall.close (fd_t.pipe_fd 0)), event.sys (syscall.close (fd_t.pipe_fd 1))] }

/-- The node of the command `cd /tmp` joined by `|` to its successor. -/
def cd_tmp_piped : cmd_node_t :=
  { plain_node "cd".toList CMD_PIPE with args := ["/tmp".toList], argc := 1 }

/-- A reply that returns `ret` and delivers `text`. -/
def text_reply (ret : Int) (text : List Char) : reply := { ret := ret, out := 0, text := text }

/-- The node of the external command `sleep 100`. -/
def sleep_node : cmd_node_t :=
  { plain_node "sleep".toList CMD_SIMPLE with args := ["100".toList], argc := 1 }

/-- The machine left by a run that read the replies before `rest` and made the
given calls, the Shell Context being as before. -/
def after_calls (m : Machine) (rest : List reply) (calls : List syscall) : Machine :=
  { ctx := m.ctx, environ := m.environ, tape := rest, log := m.log ++ calls.map event.sys }

/-- The chain that holds the given nodes, its counter being their number. -/
def chain_of (nodes : List cmd_node_t) : command_chain_t :=
  { head := nodes, count := nodes.length }

/-- A machine with a given tape, an empty record and last exit status `0`. -/
def sample_machine (tape : List reply) : Machine :=
  { ctx := { environ := [], last_exit_status := 0, current_dir := ['/'] },
    environ := some [], tape := tape, log := [] }

/-- The reply of a call that returns `ret` and writes `out`. -/
def sample_reply (ret out : Int) : reply := { ret := ret, out := out, text := [] }

/-- The chain `false && b`. -/
def chain_and : command_chain_t :=
  { head := [plain_node "false".toList CMD_AND, plain_node "b".toList CMD_SIMPLE], count := 2 }

/-- The chain `a ; false && b`. -/
def chain_semicolon_and : command_chain_t :=
  { head := [plain_node "a".toList CMD_SEMICOLON, plain_node "false".toList CMD_AND,
      plain_node "b".toList CMD_SIMPLE], count := 3 }

/-- The chain `true || b`. -/
def chain_or : command_chain_t :=
  { head := [plain_node "true".toList CMD_OR, plain_node "b".toList CMD_SIMPLE], count := 2 }

/-- The chain `a ; b`. -/
def chain_semicolon : command_chain_t :=
  { head := [plain_node "a".toList CMD_SEMICOLON, plain_node "b".toList CMD_SIMPLE], count := 2 }

/-- A tape for one external command run in the parent: `fork` gives pid `10`,
`waitpid` delivers the status of a child that exited with `code`. -/
def tape_external (code : Int) : List reply :=
  [sample_reply 10 0, sample_reply 10 (256 * code)]

/-- The chain `a | b && c`. -/
def chain_pipe_and : command_chain_t :=
  { head := [plain_node "a".toList CMD_PIPE, plain_node "b".toList CMD_AND,
      plain_node "c".toList CMD_SIMPLE], count := 3 }

/-- The chain `a | b | c`. -/
def chain_pipe3 : command_chain_t :=
  { head := [plain_node "a".toList CMD_PIPE, plain_node "b".toList CMD_PIPE,
      plain_node "c".toList CMD_SIMPLE], count := 3 }

/-- A tape for one two-stage pipeline run in the parent: `pipe` succeeds, the
two `fork` calls give pids `10` and `11`, the two `close` calls succeed, and
the two `waitpid` calls deliver the statuses of children that exited with
`code1` and `code2`. -/
def tape_pipeline (code1 code2 : Int) : List reply :=
  [sample_reply 0 0, sample_reply 10 0, sample_reply 11 0, sample_reply 0 0, sample_reply 0 0,
    sample_reply 10 (256 * code1), sample_reply 11 (256 * code2)]

/-- The record of one two-stage pipeline run in the parent with pids `10`, `11`. -/
def log_pipeline (cmd1 cmd2 : cmd_node_t) : List event :=
  [event.piped cmd1 cmd2, event.sys syscall.pipe, event.sys syscall.fork, event.sys syscall.fork,
    event.sys (syscall.close (fd_t.pipe_fd 0)), event.sys (syscall.close (fd_t.pipe_fd 1)),
    event.sys (syscall.waitpid 10), event.sys (syscall.waitpid 11)]

/-- The machine the parent is left with by a two-stage pipeline whose children
got the pids `pid1` and `pid2`: seven replies were read, eight entries recorded. -/
def after_pipeline (m : Machine) (cmd1 cmd2 : cmd_node_t) (pid1 pid2 : Int)
    (rest : List reply) : Machine :=
  { ctx := m.ctx, environ := m.environ, tape := rest,
    log := m.log ++ [event.piped cmd1 cmd2, event.sys syscall.pipe, event.sys syscall.fork,
      event.sys syscall.fork, event.sys (syscall.close (fd_t.pipe_fd 0)),
      event.sys (syscall.close (fd_t.pipe_fd 1)), event.sys (syscall.waitpid pid1),
      event.sys (syscall.waitpid pid2)] }

/-! ## The chain loop: unfolding and fuel -/

theorem Proc.bind_apply {α β : Type} (x : Proc α) (f : α → Proc β) (m : Machine) :
    (x >>= f) m = match x m with
      | Res.ok a m1 => f a m1
      | Res.exited code m1 => Res.exited code m1
      | Res.replaced m1 => Res.replaced m1
      | Res.unfinished => Res.unfinished := rfl

theorem Proc.pure_apply {α : Type} (a : α) (m : Machine) :
    (pure a : Proc α) m = Res.ok a m := rfl

theorem chain_loop_succ (fuel : Nat) (current : List cmd_node_t) (last_status : Int)
    (m : Machine) :
    chain_loop (fuel + 1) current last_status m =
      match chain_iter current last_status m with
      | Res.ok (loop_step.next current1 last_status1) m1 => chain_loop fuel current1 last_status1 m1
      | Res.ok (loop_step.done status) m1 => Res.ok status m1
      | Res.exited code m1 => Res.exited code m1
      | Res.replaced m1 => Res.replaced m1
      | Res.unfinished => Res.unfinished := by
  show (chain_iter current last_status >>= _) m = _
  rw [Proc.bind_apply]
  cases h : chain_iter current last_status m with
  | ok a m1 => cases a <;> rfl
  | exited code m1 => rfl
  | replaced m1 => rfl
  | unfinished => rfl

theorem chain_iter_single (cur : cmd_node_t) (next : List cmd_node_t) (last_status : Int)
    (m : Machine) (h : cur.type ≠ CMD_PIPE ∨ next = []) :
    chain_iter (cur :: next) last_status m =
      match execute_single_command cur m with
      | Res.ok status m1 =>
        if next ≠ [] ∧ ((cur.type = CMD_AND ∧ status ≠ 0) ∨ (cur.type = CMD_OR ∧ status = 0)) then
          Res.ok (loop_step.done status) m1
        else Res.ok (loop_step.next next status) (m1.with_status status)
      | Res.exited code m1 => Res.exited code m1
      | Res.replaced m1 => Res.replaced m1
      | Res.unfinished => Res.unfinished := by
  have key : chain_iter (cur :: next) last_status =
      (do
        let last_status ← execute_single_command cur
        if next ≠ [] ∧ ((cur.type = CMD_AND ∧ last_status ≠ 0) ∨
            (cur.type = CMD_OR ∧ last_status = 0)) then
          pure (loop_step.done last_status)
        else do
          set_last_exit_status last_status
          pure (loop_step.next next last_status) : Proc loop_step) := by
    unfold chain_iter
    rcases h with h | h
    · simp [h]
    · subst h
      by_cases hp : cur.type = CMD_PIPE <;> simp [hp]
  rw [key, Proc.bind_apply]
  cases execute_single_command cur m with
  | ok status m1 =>
    simp only []
    split <;> rfl
  | exited code m1 => rfl
  | replaced m1 => rfl
  | unfinished => rfl

theorem chain_iter_piped (cur nxt : cmd_node_t) (after : List cmd_node_t) (last_status : Int)
    (m : Machine) (h : cur.type = CMD_PIPE) :
    chain_iter (cur :: nxt :: after) last_status m =
      match execute_piped_commands cur nxt m with
      | Res.ok status m1 => Res.ok (loop_step.next after status) (m1.with_status status)
      | Res.exited code m1 => Res.exited code m1
      | Res.replaced m1 => Res.replaced m1
      | Res.unfinished => Res.unfinished := by
  have key : chain_iter (cur :: nxt :: after) last_status =
      (do
        let last_status ← execute_piped_commands cur nxt
        set_last_exit_status last_status
        pure (loop_step.next after last_status) : Proc loop_step) := by
    unfold chain_iter
    simp [h]
  rw [key, Proc.bind_apply]
  cases execute_piped_commands cur nxt m <;> rfl

theorem chain_iter_next_length (current : List cmd_node_t) (last_status : Int) (m : Machine)
    (current1 : List cmd_node_t) (last_status1 : Int) (m1 : Machine)
    (h : chain_iter current last_status m = Res.ok (loop_step.next current1 last_status1) m1) :
    current1.length < current.length := by
  cases current with
  | nil => simp [chain_iter, Proc.pure_apply] at h
  | cons cur next =>
    by_cases hp : cur.type = CMD_PIPE
    · cases next with
      | nil =>
        rw [chain_iter_single cur [] last_status m (Or.inr rfl)] at h
        cases hs : execute_single_command cur m <;> simp [hs] at h
        simp [← h.1.1]
      | cons nxt after =>
        rw [chain_iter_piped cur nxt after last_status m hp] at h
        cases hs : execute_piped_commands cur nxt m <;> simp [hs] at h
        simp [← h.1.1]
        omega
    · rw [chain_iter_single cur next last_status m (Or.inl hp)] at h
      cases hs : execute_single_command cur m <;> simp [hs] at h
      split at h <;> simp at h
      simp [← h.1.1]

theorem chain_state_length (k : Nat) :
    ∀ (current : List cmd_node_t) (last_status : Int) (m : Machine)
      (current1 : List cmd_node_t) (last_status1 : Int) (m1 : Machine),
      chain_state k current last_status m = some (current1, last_status1, m1) →
      current1.length + k ≤ current.length := by
  induction k with
  | zero =>
    intro current last_status m current1 last_status1 m1 h
    simp [chain_state] at h
    simp [h.1]
  | succ k ih =>
    intro current last_status m current1 last_status1 m1 h
    unfold chain_state at h
    cases hi : chain_iter current last_status m with
    | ok step m2 =>
      cases step with
      | next current2 last_status2 =>
        rw [hi] at h
        have h1 := chain_iter_next_length _ _ _ _ _ _ hi
        have h2 := ih _ _ _ _ _ _ h
        omega
      | done status => rw [hi] at h; simp at h
    | exited code m2 => rw [hi] at h; simp at h
    | replaced m2 => rw [hi] at h; simp at h
    | unfinished => rw [hi] at h; simp at h

theorem chain_loop_of_state (k : Nat) :
    ∀ (n : Nat) (current : List cmd_node_t) (last_status : Int) (m : Machine)
      (current1 : List cmd_node_t) (last_status1 : Int) (m1 : Machine),
      chain_state k current last_status m = some (current1, last_status1, m1) →
      chain_loop (k + n) current last_status m = chain_loop n current1 last_status1 m1 := by
  induction k with
  | zero =>
    intro n current last_status m current1 last_status1 m1 h
    simp [chain_state] at h
    simp [h.1, h.2.1, h.2.2]
  | succ k ih =>
    intro n current last_status m current1 last_status1 m1 h
    unfold chain_state at h
    have e : k + 1 + n = (k + n) + 1 := by omega
    rw [e, chain_loop_succ]
    cases hi : chain_iter current last_status m with
    | ok step m2 =>
      cases step with
      | next current2 last_status2 =>
        rw [hi] at h
        exact ih _ _ _ _ _ _ _ h
      | done status => rw [hi] at h; simp at h
    | exited code m2 => rw [hi] at h; simp at h
    | replaced m2 => rw [hi] at h; simp at h
    | unfinished => rw [hi] at h; simp at h

theorem chain_loop_more_fuel (n : Nat) :
    ∀ (current : List cmd_node_t) (last_status : Int) (m : Machine),
      chain_loop n current last_status m ≠ Res.unfinished →
      ∀ j, chain_loop (n + j) current last_status m = chain_loop n current last_status m := by
  induction n with
  | zero =>
    intro current last_status m h
    exact absurd rfl h
  | succ n ih =>
    intro current last_status m h j
    have e : n + 1 + j = (n + j) + 1 := by omega
    rw [e, chain_loop_succ, chain_loop_succ]
    rw [chain_loop_succ] at h
    cases hi : chain_iter current last_status m with
    | ok step m2 =>
      cases step with
      | next current2 last_status2 =>
        rw [hi] at h
        exact ih _ _ _ h j
      | done status => rfl
    | exited code m2 => rfl
    | replaced m2 => rfl
    | unfinished => rfl

/-- When the loop of `execute_command_chain` is at some loop state and one more
pass from there leaves the loop, the result of that pass is the result of
`execute_command_chain`. -/
theorem execute_command_chain_of_state (chain : command_chain_t) (m0 : Machine) (k : Nat)
    (current : List cmd_node_t) (last_status : Int) (m : Machine) (r : Res Int)
    (hne : chain.head ≠ [])
    (hreach : chain_state k chain.head 0 m0 = some (current, last_status, m))
    (hlast : chain_loop 1 current last_status m = r) (hr : r ≠ Res.unfinished) :
    execute_command_chain chain m0 = r := by
  have hlen := chain_state_length k _ _ _ _ _ _ hreach
  have h1 := chain_loop_of_state k 1 _ _ _ _ _ _ hreach
  rw [hlast] at h1
  have h2 := chain_loop_more_fuel (k + 1) chain.head 0 m0 (by rw [h1]; exact hr)
    (chain.head.length - k)
  have e : k + 1 + (chain.head.length - k) = chain.head.length + 1 := by omega
  rw [e, h1] at h2
  unfold execute_command_chain
  rw [if_neg hne]
  exact h2

/-! ## Short-circuit and sequencing in `execute_command_chain` -/

/-- C1: whenever the loop of `execute_command_chain` stands on a command `a`
that has a successor and carries the join-operator `&&`, and running `a` as a
single command returns a non-zero status, `execute_command_chain` returns that
status and the machine is the one `a` left: nothing is run after `a`. -/
theorem and_failure_abandons_chain (chain : command_chain_t) (m0 : Machine) (k : Nat)
    (a b : cmd_node_t) (rest : List cmd_node_t) (last_status : Int) (m : Machine)
    (status : Int) (m1 : Machine)
    (hreach : chain_state k chain.head 0 m0 = some (a :: b :: rest, last_status, m))
    (htype : a.type = CMD_AND)
    (hrun : execute_single_command a m = Res.ok status m1)
    (hfail : status ≠ 0) :
    execute_command_chain chain m0 = Res.ok status m1 := by
  have hlen := chain_state_length k _ _ _ _ _ _ hreach
  have hne : chain.head ≠ [] := by
    intro h
    rw [h] at hlen
    simp at hlen
  refine execute_command_chain_of_state chain m0 k _ _ _ _ hne hreach ?_ (by simp)
  rw [chain_loop_succ, chain_iter_single a (b :: rest) last_status m (Or.inl (by rw [htype]; decide)),
    hrun]
  simp [htype, hfail]

/-- C1, on the chain `a ; false && b` where `a` exits with code 0 and `false`
with code 1: the loop stands on `false` after one pass, and `b` is not run. -/
theorem and_failure_abandons_chain_witness :
    execute_command_chain chain_semicolon_and
        (sample_machine (tape_external 0 ++ [sample_reply 11 0, sample_reply 11 256])) =
      Res.ok 1 { sample_machine [] with
        log := [event.single (plain_node "a".toList CMD_SEMICOLON), event.sys syscall.fork,
          event.sys (syscall.waitpid 10), event.single (plain_node "false".toList CMD_AND),
          event.sys syscall.fork, event.sys (syscall.waitpid 11)] } :=
  and_failure_abandons_chain chain_semicolon_and
    (sample_machine (tape_external 0 ++ [sample_reply 11 0, sample_reply 11 256])) 1
    (plain_node "false".toList CMD_AND) (plain_node "b".toList CMD_SIMPLE) [] 0
    { sample_machine [sample_reply 11 0, sample_reply 11 256] with
      log := [event.single (plain_node "a".toList CMD_SEMICOLON), event.sys syscall.fork,
        event.sys (syscall.waitpid 10)] }
    1 _ (by decide) (by decide) (by decide) (by decide)

/-- C2: whenever the loop of `execute_command_chain` stands on a command `a`
that has a successor and carries the join-operator `||`, and running `a` as a
single command returns status zero, `execute_command_chain` returns zero and
the machine is the one `a` left: nothing is run after `a`. -/
theorem or_success_abandons_chain (chain : command_chain_t) (m0 : Machine) (k : Nat)
    (a b : cmd_node_t) (rest : List cmd_node_t) (last_status : Int) (m : Machine)
    (status : Int) (m1 : Machine)
    (hreach : chain_state k chain.head 0 m0 = some (a :: b :: rest, last_status, m))
    (htype : a.type = CMD_OR)
    (hrun : execute_single_command a m = Res.ok status m1)
    (hzero : status = 0) :
    execute_command_chain chain m0 = Res.ok 0 m1 := by
  have hlen := chain_state_length k _ _ _ _ _ _ hreach
  have hne : chain.head ≠ [] := by
    intro h
    rw [h] at hlen
    simp at hlen
  refine execute_command_chain_of_state chain m0 k _ _ _ _ hne hreach ?_ (by simp)
  rw [chain_loop_succ, chain_iter_single a (b :: rest) last_status m (Or.inl (by rw [htype]; decide)),
    hrun]
  simp [htype, hzero]

/-- C2, on the chain `true || b` with `true` exiting with code 0. -/
theorem or_success_abandons_chain_witness :
    execute_command_chain chain_or (sample_machine (tape_external 0)) =
      Res.ok 0 { sample_machine [] with
        log := [event.single (plain_node "true".toList CMD_OR), event.sys syscall.fork,
          event.sys (syscall.waitpid 10)] } :=
  or_success_abandons_chain chain_or (sample_machine (tape_external 0)) 0
    (plain_node "true".toList CMD_OR) (plain_node "b".toList CMD_SIMPLE) [] 0
    (sample_machine (tape_external 0)) 0 _ (by decide) (by decide) (by decide) (by decide)

/-- C3: on a chain of two commands `a ; b`, when `a` returns a status,
`execute_command_chain` stores that status, runs `b` as a single command
whatever the status was, and when `b` returns it stores and returns the status
of `b` (when `b` ends the process instead, so does `execute_command_chain`). -/
theorem semicolon_runs_both (chain : command_chain_t) (m0 : Machine) (a b : cmd_node_t)
    (status : Int) (m1 : Machine)
    (hchain : chain.head = [a, b])
    (htype : a.type = CMD_SEMICOLON)
    (hrun : execute_single_command a m0 = Res.ok status m1) :
    execute_command_chain chain m0 =
      match execute_single_command b (m1.with_status status) with
      | Res.ok status_b m2 => Res.ok status_b (m2.with_status status_b)
      | Res.exited code m2 => Res.exited code m2
      | Res.replaced m2 => Res.replaced m2
      | Res.unfinished => Res.unfinished := by
  unfold execute_command_chain
  rw [hchain]
  simp only [List.length_cons, List.length_nil, if_neg (List.cons_ne_nil a [b])]
  rw [chain_loop_succ, chain_iter_single a [b] 0 m0 (Or.inl (by rw [htype]; decide)), hrun]
  simp only [htype]
  rw [if_neg (by simp)]
  simp only []
  rw [chain_loop_succ, chain_iter_single b [] status _ (Or.inr rfl)]
  cases hb : execute_single_command b (m1.with_status status) with
  | ok status_b m2 =>
    simp only [ne_eq, not_true_eq_false, false_and, if_false]
    rw [chain_loop_succ]
    rfl
  | exited code m2 => rfl
  | replaced m2 => rfl
  | unfinished => rfl

/-- C3, on the chain `a ; b` with `a` exiting with code 1 and `b` with code 2. -/
theorem semicolon_runs_both_witness :
    execute_command_chain chain_semicolon
        (sample_machine (tape_external 1 ++ [sample_reply 11 0, sample_reply 11 512])) =
      Res.ok 2 { (sample_machine []).with_status 2 with
        log := [event.single (plain_node "a".toList CMD_SEMICOLON), event.sys syscall.fork,
          event.sys (syscall.waitpid 10), event.single (plain_node "b".toList CMD_SIMPLE),
          event.sys syscall.fork, event.sys (syscall.waitpid 11)] } :=
  semicolon_runs_both chain_semicolon _ (plain_node "a".toList CMD_SEMICOLON)
    (plain_node "b".toList CMD_SIMPLE) 1
    { sample_machine [sample_reply 11 0, sample_reply 11 512] with
      log := [event.single (plain_node "a".toList CMD_SEMICOLON), event.sys syscall.fork,
        event.sys (syscall.waitpid 10)] }
    (by decide) (by decide) (by decide)

/-- C4: on the chain `false && b` started with last exit status `0`, `false`
exits with code 1, the chain is abandoned and `execute_command_chain` returns
`1`, but `ctx.last_exit_status` is still `0`: the `break` leaves the loop before
the assignment to `ctx->last_exit_status`. -/
theorem short_circuit_skips_status_update :
    execute_command_chain chain_and (sample_machine (tape_external 1)) =
        Res.ok 1 { sample_machine [] with
          log := [event.single (plain_node "false".toList CMD_AND), event.sys syscall.fork,
            event.sys (syscall.waitpid 10)] } ∧
      (sample_machine []).ctx.last_exit_status = 0 := by
  decide

/-- C6: on the chain `a | b && c` where the pipeline `a | b` ends with status 1
(`b` exits with code 1), `execute_command_chain` goes on to run `c` as a single
command and returns the status of `c`: the join-operator of `b` is not looked
at after a pipeline. -/
theorem pipeline_join_operator_ignored :
    execute_command_chain chain_pipe_and
        (sample_machine (tape_pipeline 0 1 ++ [sample_reply 12 0, sample_reply 12 0])) =
      Res.ok 0 { sample_machine [] with
        log := log_pipeline (plain_node "a".toList CMD_PIPE) (plain_node "b".toList CMD_AND) ++
          [event.single (plain_node "c".toList CMD_SIMPLE), event.sys syscall.fork,
            event.sys (syscall.waitpid 12)] } := by
  decide

/-! ## Pipelines -/

theorem chain_loop_pairs (fuel : Nat) :
    ∀ (l : List cmd_node_t) (last_status : Int) (m : Machine),
      l.length < fuel → (∀ c ∈ l.dropLast, c.type = CMD_PIPE) →
      chain_loop fuel l last_status m = run_in_pairs l last_status m := by
  induction fuel with
  | zero => intro l last_status m h; omega
  | succ fuel ih =>
    intro l last_status m hlen hpipe
    rw [chain_loop_succ]
    match l, hlen, hpipe with
    | [], _, _ => rfl
    | [c], hlen, _ =>
      rw [chain_iter_single c [] last_status m (Or.inr rfl)]
      obtain ⟨f, rfl⟩ : ∃ f, fuel = f + 1 := ⟨fuel - 1, by simp at hlen; omega⟩
      show _ = (execute_single_command c >>= _) m
      rw [Proc.bind_apply]
      cases execute_single_command c m with
      | ok status m1 =>
        simp only [ne_eq, not_true_eq_false, false_and, if_false]
        rw [chain_loop_succ]
        rfl
      | exited code m1 => rfl
      | replaced m1 => rfl
      | unfinished => rfl
    | c1 :: c2 :: rest, hlen, hpipe =>
      have h1 : c1.type = CMD_PIPE := hpipe c1 (by simp [List.dropLast])
      rw [chain_iter_piped c1 c2 rest last_status m h1]
      show _ = (execute_piped_commands c1 c2 >>= _) m
      rw [Proc.bind_apply]
      cases execute_piped_commands c1 c2 m with
      | ok status m1 =>
        simp only []
        rw [ih rest status _ (by simp at hlen; omega)]
        · rfl
        · intro c hc
          apply hpipe c
          cases rest with
          | nil => simp at hc
          | cons r rs =>
            simp only [List.dropLast] at hc ⊢
            simp [hc]
      | exited code m1 => rfl
      | replaced m1 => rfl
      | unfinished => rfl

/-- C7 as stated fails: on the chain `a | b | c`, all forks succeeding, the
record of `execute_command_chain` holds one `pipe` call only, and `c` is entered
through `execute_single_command` after the two children of `a | b` were waited
for; `c` is not a stage of the pipeline. -/
theorem third_command_not_in_pipeline :
    execute_command_chain chain_pipe3
        (sample_machine (tape_pipeline 0 0 ++ [sample_reply 12 0, sample_reply 12 768])) =
      Res.ok 3 ({ sample_machine [] with
        log := log_pipeline (plain_node "a".toList CMD_PIPE) (plain_node "b".toList CMD_PIPE) ++
          [event.single (plain_node "c".toList CMD_SIMPLE), event.sys syscall.fork,
            event.sys (syscall.waitpid 12)] }.with_status 3) ∧
    (log_pipeline (plain_node "a".toList CMD_PIPE) (plain_node "b".toList CMD_PIPE) ++
        [event.single (plain_node "c".toList CMD_SIMPLE), event.sys syscall.fork,
          event.sys (syscall.waitpid 12)]).count (event.sys syscall.pipe) = 1 := by
  decide

/-- C7 as amended: on a chain of at least two commands in which every command
but the last carries the join-operator `|`, `execute_command_chain` takes the
commands two at a time, runs each pair as a separate two-stage pipeline and
stores its status, and runs a command left alone at the end (the third of
three) as a single command. -/
theorem pipe_chain_runs_in_pairs (chain : command_chain_t) (m : Machine)
    (hlen : 2 ≤ chain.head.length)
    (hpipe : ∀ c ∈ chain.head.dropLast, c.type = CMD_PIPE) :
    execute_command_chain chain m = run_in_pairs chain.head 0 m := by
  unfold execute_command_chain
  have hne : chain.head ≠ [] := by
    intro h
    rw [h] at hlen
    simp at hlen
  rw [if_neg hne]
  exact chain_loop_pairs _ _ _ _ (by omega) hpipe

/-- C7 as amended, on the chain `a | b | c`. -/
theorem pipe_chain_runs_in_pairs_witness :
    execute_command_chain chain_pipe3 (sample_machine []) =
      run_in_pairs [plain_node "a".toList CMD_PIPE, plain_node "b".toList CMD_PIPE,
        plain_node "c".toList CMD_SIMPLE] 0 (sample_machine []) :=
  pipe_chain_runs_in_pairs chain_pipe3 (sample_machine []) (by decide) (by decide)

theorem WEXITSTATUS_of_exit (code : Int) (h : 0 ≤ code ∧ code < 256) :
    WEXITSTATUS (256 * code) = code := by
  unfold WEXITSTATUS
  rw [Int.mul_ediv_cancel_left _ (by norm_num : (256 : Int) ≠ 0)]
  exact Int.emod_eq_of_lt h.1 h.2

/-- C8: when `pipe` succeeds and both `fork` calls return a child pid to the
parent, and the second child exits with `code`, `execute_piped_commands`
returns `code` whatever status the first child delivers; this holds for the
function of `executor.c` and for the one of `execute_node.c`, and
`execute_command_chain` on the chain made of that pipeline returns `code` too. -/
theorem pipeline_status_is_last_stage (cmd1 cmd2 : cmd_node_t) (after1 after2 : List cmd_node_t)
    (fuel : Nat) (count : Int) (m : Machine)
    (r_pipe r_fork1 r_fork2 r_close1 r_close2 r_wait1 r_wait2 : reply) (rest : List reply)
    (code : Int)
    (htape : m.tape =
      r_pipe :: r_fork1 :: r_fork2 :: r_close1 :: r_close2 :: r_wait1 :: r_wait2 :: rest)
    (hpipe : r_pipe.ret ≠ -1) (hchild1 : 0 < r_fork1.ret) (hchild2 : 0 < r_fork2.ret)
    (hcode : 0 ≤ code ∧ code < 256) (hexit : r_wait2.out = 256 * code) :
    execute_piped_commands cmd1 cmd2 m =
        Res.ok code (after_pipeline m cmd1 cmd2 r_fork1.ret r_fork2.ret rest) ∧
      ExecuteNode.execute_piped_commands fuel (cmd1 :: after1) (cmd2 :: after2) m =
        Res.ok code (after_pipeline m cmd1 cmd2 r_fork1.ret r_fork2.ret rest) ∧
      (cmd1.type = CMD_PIPE →
        execute_command_chain { head := [cmd1, cmd2], count := count } m =
          Res.ok code ((after_pipeline m cmd1 cmd2 r_fork1.ret r_fork2.ret rest).with_status code)) := by
  have hw := WEXITSTATUS_of_exit code hcode
  have h1 : r_fork1.ret ≠ 0 := by omega
  have h2 : r_fork2.ret ≠ 0 := by omega
  have h1' : ¬ r_fork1.ret < 0 := by omega
  have h2' : ¬ r_fork2.ret < 0 := by omega
  have e1 : execute_piped_commands cmd1 cmd2 m =
      Res.ok code (after_pipeline m cmd1 cmd2 r_fork1.ret r_fork2.ret rest) := by
    obtain ⟨ctx, environ, tape, log⟩ := m
    simp only at htape
    subst htape
    simp [execute_piped_commands, after_pipeline, bind, Proc.bind, sys, note, pure, hpipe, h1, h2,
      hexit, hw]
  refine ⟨e1, ?_, ?_⟩
  · obtain ⟨ctx, environ, tape, log⟩ := m
    simp only at htape
    subst htape
    simp [ExecuteNode.execute_piped_commands, ExecuteNode.execute_piped_commands_body,
      after_pipeline, bind, Proc.bind, sys, note, pure, hpipe, h1, h2, h1', h2', hexit, hw]
  · intro hp
    unfold execute_command_chain
    simp only [List.length_cons, List.length_nil, if_neg (List.cons_ne_nil cmd1 [cmd2])]
    rw [chain_loop_succ, chain_iter_piped cmd1 cmd2 [] 0 _ hp, e1]
    simp only []
    rw [chain_loop_succ]
    rfl

/-- C8, on the pipeline `a | b` where `a` exits with code 127 and `b` with code 5. -/
theorem pipeline_status_is_last_stage_witness :
    execute_piped_commands (plain_node "a".toList CMD_PIPE) (plain_node "b".toList CMD_SIMPLE)
        (sample_machine (tape_pipeline 127 5)) =
        Res.ok 5 (after_pipeline (sample_machine (tape_pipeline 127 5))
          (plain_node "a".toList CMD_PIPE) (plain_node "b".toList CMD_SIMPLE) 10 11 []) ∧
      ExecuteNode.execute_piped_commands 0 [plain_node "a".toList CMD_PIPE,
          plain_node "b".toList CMD_SIMPLE] [plain_node "b".toList CMD_SIMPLE]
        (sample_machine (tape_pipeline 127 5)) =
        Res.ok 5 (after_pipeline (sample_machine (tape_pipeline 127 5))
          (plain_node "a".toList CMD_PIPE) (plain_node "b".toList CMD_SIMPLE) 10 11 []) ∧
      execute_command_chain { head := [plain_node "a".toList CMD_PIPE,
          plain_node "b".toList CMD_SIMPLE], count := 2 }
        (sample_machine (tape_pipeline 127 5)) =
        Res.ok 5 ((after_pipeline (sample_machine (tape_pipeline 127 5))
          (plain_node "a".toList CMD_PIPE) (plain_node "b".toList CMD_SIMPLE) 10 11 []).with_status 5) :=
  have h := pipeline_status_is_last_stage (plain_node "a".toList CMD_PIPE)
    (plain_node "b".toList CMD_SIMPLE) [plain_node "b".toList CMD_SIMPLE] [] 0 2
    (sample_machine (tape_pipeline 127 5))
    (sample_reply 0 0) (sample_reply 10 0) (sample_reply 11 0) (sample_reply 0 0) (sample_reply 0 0)
    (sample_reply 10 (256 * 127)) (sample_reply 11 (256 * 5)) [] 5
    (by decide) (by decide) (by decide) (by decide) (by decide) (by decide)
  ⟨h.1, h.2.1, h.2.2 rfl⟩

/-! ## The tokenizer on blanks, operators and plain words -/

theorem skip_blanks_append (bl rest : List Char) (hbl : blanks bl) :
    skip_blanks (bl ++ rest) = skip_blanks rest := by
  induction bl with
  | nil => rfl
  | cons c cs ih =>
    have hc : c = ' ' ∨ c = '\t' := hbl c (by simp)
    have hcs : blanks cs := fun d hd => hbl d (by simp [hd])
    simp [skip_blanks, hc, ih hcs]

theorem skip_blanks_of_blanks (bl : List Char) (hbl : blanks bl) : skip_blanks bl = [] := by
  have h := skip_blanks_append bl [] hbl
  simpa [skip_blanks] using h

theorem skip_blanks_cons (c : Char) (cs : List Char) (h1 : c ≠ ' ') (h2 : c ≠ '\t') :
    skip_blanks (c :: cs) = c :: cs := by
  simp [skip_blanks, h1, h2]

theorem scan_word_plain (w rest : List Char) (hw : ∀ c ∈ w, plain_char c)
    (hrest : scan_word rest = ([], rest)) : scan_word (w ++ rest) = (w, rest) := by
  induction w with
  | nil => simpa using hrest
  | cons c cs ih =>
    obtain ⟨h0, h1, h2, h3, h4, h5, h6, _, _⟩ := hw c (by simp)
    have hcs : ∀ d ∈ cs, plain_char d := fun d hd => hw d (by simp [hd])
    simp [scan_word, h0, h1, h2, h3, h4, h5, h6, ih hcs]

theorem scan_word_stop (c : Char) (cs : List Char)
    (h : c = '\x00' ∨ c = ' ' ∨ c = '\t' ∨ c = '\n' ∨ c = '|' ∨ c = '&' ∨ c = ';') :
    scan_word (c :: cs) = ([], c :: cs) := by
  rcases h with h | h | h | h | h | h | h <;> subst h <;> simp [scan_word]

theorem parse_token_word (w rest : List Char) (hw : plain_word w)
    (hrest : scan_word rest = ([], rest)) :
    parse_token (w ++ rest) = { token := some w, is_operator := false, input := rest } := by
  obtain ⟨hne, hall⟩ := hw
  cases w with
  | nil => exact absurd rfl hne
  | cons c cs =>
    obtain ⟨h0, h1, h2, h3, h4, h5, h6, h7, h8⟩ := hall c (by simp)
    have hs := scan_word_plain (c :: cs) rest hall hrest
    simp only [List.cons_append] at hs
    simp [parse_token, skip_blanks, regular_token, h0, h1, h2, h4, h5, h6, h7, h8, hs]

theorem parse_token_leading_operator (bl op rest : List Char) (type : cmd_type_t)
    (hbl : blanks bl) (hop : operator_type op = some type) :
    (parse_token (bl ++ op ++ rest)).token ≠ none ∧
      (parse_token (bl ++ op ++ rest)).is_operator = true := by
  have hcases : op = [';'] ∨ op = ['&', '&'] ∨ op = ['|', '|'] ∨ op = ['|'] := by
    unfold operator_type at hop
    by_cases h1 : op = [';']
    · exact Or.inl h1
    · by_cases h2 : op = ['&', '&']
      · exact Or.inr (Or.inl h2)
      · by_cases h3 : op = ['|', '|']
        · exact Or.inr (Or.inr (Or.inl h3))
        · by_cases h4 : op = ['|']
          · exact Or.inr (Or.inr (Or.inr h4))
          · simp [h1, h2, h3, h4] at hop
  unfold parse_token
  rw [List.append_assoc, skip_blanks_append bl _ hbl]
  rcases hcases with h | h | h | h
  · subst h
    simp [skip_blanks]
  · subst h
    simp [skip_blanks, peek]
  · subst h
    simp [skip_blanks, peek]
  · subst h
    by_cases hp : peek rest = '|' <;> simp [skip_blanks, hp]

theorem parse_token_blanks (bl : List Char) (hbl : blanks bl) :
    parse_token bl = { token := none, is_operator := false, input := [] } := by
  unfold parse_token
  rw [skip_blanks_of_blanks bl hbl]

theorem peek_cons (c : Char) (cs : List Char) : peek (c :: cs) = c := rfl

theorem operator_type_cases (op : List Char) (type : cmd_type_t)
    (hop : operator_type op = some type) :
    (op = [';'] ∧ type = CMD_SEMICOLON) ∨ (op = ['&', '&'] ∧ type = CMD_AND) ∨
      (op = ['|', '|'] ∧ type = CMD_OR) ∨ (op = ['|'] ∧ type = CMD_PIPE) := by
  unfold operator_type at hop
  by_cases h1 : op = [';']
  · simp [h1] at hop; exact Or.inl ⟨h1, hop.symm⟩
  · by_cases h2 : op = ['&', '&']
    · simp [h2] at hop; exact Or.inr (Or.inl ⟨h2, hop.symm⟩)
    · by_cases h3 : op = ['|', '|']
      · simp [h3] at hop; exact Or.inr (Or.inr (Or.inl ⟨h3, hop.symm⟩))
      · by_cases h4 : op = ['|']
        · simp [h4] at hop; exact Or.inr (Or.inr (Or.inr ⟨h4, hop.symm⟩))
        · simp [h1, h2, h3, h4] at hop

theorem peek_plain_word (w rest : List Char) (hw : plain_word w) : plain_char (peek (w ++ rest)) := by
  obtain ⟨hne, hall⟩ := hw
  cases w with
  | nil => exact absurd rfl hne
  | cons c cs => exact hall c (by simp)

theorem peek_blanks_plain_word (bl w rest : List Char) (hbl : blanks bl) (hw : plain_word w) :
    peek (bl ++ w ++ rest) ≠ '\x00' ∧ peek (bl ++ w ++ rest) ≠ '|' := by
  cases bl with
  | nil =>
    have h := peek_plain_word w rest hw
    simp only [List.nil_append]
    exact ⟨h.1, h.2.2.2.2.1⟩
  | cons c cs =>
    have hc : c = ' ' ∨ c = '\t' := hbl c (by simp)
    rcases hc with hc | hc <;> simp [peek, hc]

/-! ## The parser on plain words and operators -/

theorem collect_args_end (room : Nat) (input rest : List Char)
    (h : parse_token input = { token := none, is_operator := false, input := rest }) :
    collect_args room input = ([], rest) := by
  unfold collect_args
  simp [h]

theorem parse_iter_word (bl w rest : List Char) (chain : command_chain_t) (hbl : blanks bl)
    (hw : plain_word w) (node : cmd_node_t) (current : List Char)
    (h : parse_single_command (w ++ rest) = (some node, current)) :
    parse_iter (bl ++ w ++ rest) chain =
      Sum.inl ((join_operator node (skip_blanks current)).2,
        add_command_to_chain chain (join_operator node (skip_blanks current)).1) := by
  have hp := (peek_blanks_plain_word bl w rest hbl hw).1
  have hw' := peek_plain_word w rest hw
  have hs : skip_blanks (bl ++ w ++ rest) = w ++ rest := by
    rw [List.append_assoc, skip_blanks_append bl _ hbl]
    obtain ⟨hne, hall⟩ := hw
    cases w with
    | nil => exact absurd rfl hne
    | cons c cs =>
      have hc := hall c (by simp)
      exact skip_blanks_cons c _ hc.2.1 hc.2.2.1
  unfold parse_iter
  rw [if_neg hp]
  simp only [hs]
  rw [if_neg hw'.1, h]

theorem parse_iter_end (chain : command_chain_t) : parse_iter [] chain = Sum.inr chain := rfl

theorem join_operator_end (node : cmd_node_t) : join_operator node [] = (node, []) := rfl

theorem join_operator_word (node : cmd_node_t) (w rest : List Char) (hw : plain_word w) :
    join_operator node (w ++ rest) = (node, w ++ rest) := by
  obtain ⟨h0, _, _, _, h4, h5, h6, _, _⟩ := peek_plain_word w rest hw
  simp [join_operator, h0, h4, h5, h6]

theorem parse_loop_succ (fuel : Nat) (current : List Char) (chain : command_chain_t) :
    parse_loop (fuel + 1) current chain =
      match parse_iter current chain with
      | Sum.inl s => parse_loop fuel s.1 s.2
      | Sum.inr chain => some chain := rfl

theorem parse_loop_more_fuel (n : Nat) :
    ∀ (current : List Char) (chain result : command_chain_t),
      parse_loop n current chain = some result →
      ∀ j, parse_loop (n + j) current chain = some result := by
  induction n with
  | zero =>
    intro current chain result h
    simp [parse_loop] at h
  | succ n ih =>
    intro current chain result h j
    have e : n + 1 + j = (n + j) + 1 := by omega
    rw [e, parse_loop_succ]
    rw [parse_loop_succ] at h
    cases hi : parse_iter current chain with
    | inl s =>
      rw [hi] at h
      exact ih _ _ _ h j
    | inr c =>
      rw [hi] at h
      exact h

theorem parse_command_line_of_loop (line : List Char) (n : Nat) (result : command_chain_t)
    (hn : n ≤ line.length + 1) (h : parse_loop n line create_command_chain = some result) :
    parse_command_line line = some result := by
  have h2 := parse_loop_more_fuel n line create_command_chain result h (line.length + 1 - n)
  have e : n + (line.length + 1 - n) = line.length + 1 := by omega
  rw [e] at h2
  exact h2

/-- C5: on the lines `a ; b`, `a && b`, `a || b`, `a | b` and `a&&b`,
`parse_command_line` returns the two commands `a` and `b`, and the type of `a`
is `CMD_SIMPLE` every time: `parse_single_command` has consumed the operator
before `parse_command_line` looks for it. -/
theorem join_operator_is_lost :
    parse_command_line "a ; b".toList =
        some (chain_of [plain_node ['a'] CMD_SIMPLE, plain_node ['b'] CMD_SIMPLE]) ∧
      parse_command_line "a && b".toList =
        some (chain_of [plain_node ['a'] CMD_SIMPLE, plain_node ['b'] CMD_SIMPLE]) ∧
      parse_command_line "a || b".toList =
        some (chain_of [plain_node ['a'] CMD_SIMPLE, plain_node ['b'] CMD_SIMPLE]) ∧
      parse_command_line "a | b".toList =
        some (chain_of [plain_node ['a'] CMD_SIMPLE, plain_node ['b'] CMD_SIMPLE]) ∧
      parse_command_line "a&&b".toList =
        some (chain_of [plain_node ['a'] CMD_SIMPLE, plain_node ['b'] CMD_SIMPLE]) := by
  decide

/-- C10: a line whose first token, after leading blanks, is one of the operators
`;`, `&&`, `||`, `|` parses to the chain with no command, whatever follows the
operator, and `execute_command_chain` on that chain returns `0` and leaves the
machine, the Shell Context included, as it was. -/
theorem leading_operator_gives_empty_chain (bl op rest : List Char) (type : cmd_type_t)
    (m : Machine) (hbl : blanks bl) (hop : operator_type op = some type) :
    parse_command_line (bl ++ op ++ rest) = some create_command_chain ∧
      create_command_chain.head = [] ∧
      execute_command_chain create_command_chain m = Res.ok 0 m := by
  refine ⟨?_, rfl, rfl⟩
  apply parse_command_line_of_loop _ 1 _ (by omega)
  rw [parse_loop_succ]
  have hskip : skip_blanks (op ++ rest) = op ++ rest ∧ peek (op ++ rest) ≠ '\x00' := by
    rcases operator_type_cases op type hop with h | h | h | h <;> rw [h.1] <;>
      simp [skip_blanks, peek]
  have hpeek : peek (bl ++ op ++ rest) ≠ '\x00' := by
    cases bl with
    | nil => simpa using hskip.2
    | cons c cs =>
      have hc : c = ' ' ∨ c = '\t' := hbl c (by simp)
      rcases hc with hc | hc <;> simp [peek, hc]
  have htok := parse_token_leading_operator [] op rest type (by intro c hc; simp at hc) hop
  simp only [List.nil_append] at htok
  have hcmd : (parse_single_command (op ++ rest)).1 = none := by
    unfold parse_single_command
    simp only [htok.2, if_true]
    split <;> rfl
  unfold parse_iter
  rw [if_neg hpeek]
  simp only [List.append_assoc, skip_blanks_append bl _ hbl, hskip.1]
  rw [if_neg hskip.2]
  cases hp : parse_single_command (op ++ rest) with
  | mk node current =>
    rw [hp] at hcmd
    simp only at hcmd
    subst hcmd
    rfl

/-- C10, on the line `  && ls`. -/
theorem leading_operator_gives_empty_chain_witness :
    parse_command_line ([' ', ' '] ++ ['&', '&'] ++ " ls".toList) = some create_command_chain ∧
      create_command_chain.head = [] ∧
      execute_command_chain create_command_chain (sample_machine []) =
        Res.ok 0 (sample_machine []) :=
  leading_operator_gives_empty_chain [' ', ' '] ['&', '&'] " ls".toList CMD_AND
    (sample_machine []) (by decide) (by decide)

/-! ## No piece of the engine runs out of fuel -/

theorem finishes_pure {α : Type} (a : α) : (pure a : Proc α).finishes := by
  intro m h
  cases h

theorem finishes_bind {α β : Type} (x : Proc α) (f : α → Proc β) (hx : x.finishes)
    (hf : ∀ a, (f a).finishes) : (x >>= f).finishes := by
  intro m
  rw [Proc.bind_apply]
  cases h : x m with
  | ok a m1 => exact hf a m1
  | exited code m1 => simp
  | replaced m1 => simp
  | unfinished => exact absurd h (hx m)

theorem finishes_sys (call : syscall) : (sys call).finishes := by
  intro m
  obtain ⟨ctx, environ, tape, log⟩ := m
  cases tape <;> simp [sys]

theorem finishes_note (e : event) : (note e).finishes := by
  intro m
  simp [note]

theorem finishes_sys_exit {α : Type} (code : Int) : (sys_exit code : Proc α).finishes := by
  intro m
  simp [sys_exit]

theorem finishes_sys_execvp (file : Option (List Char)) (args : List (List Char)) :
    (sys_execvp file args).finishes := by
  intro m
  unfold sys_execvp
  cases h : sys (syscall.execvp file args) m with
  | ok r m1 =>
    simp only []
    split <;> simp
  | exited code m1 => simp
  | replaced m1 => simp
  | unfinished => exact absurd h (finishes_sys _ m)

theorem finishes_set_last_exit_status (status : Int) : (set_last_exit_status status).finishes := by
  intro m
  simp [set_last_exit_status]

theorem finishes_builtin_cd_to (dir : List Char) : (builtin_cd_to dir).finishes := by
  unfold builtin_cd_to
  refine finishes_bind _ _ (finishes_sys _) (fun r => ?_)
  split
  · exact finishes_bind _ _ (finishes_sys _) (fun _ => finishes_pure _)
  · refine finishes_bind _ _ (finishes_sys _) (fun g => ?_)
    split
    · exact finishes_bind _ _ (finishes_sys _) (fun _ => finishes_pure _)
    · intro m h
      cases h

theorem finishes_builtin_cd (args : List (List Char)) : (builtin_cd args).finishes := by
  unfold builtin_cd
  split
  · refine finishes_bind _ _ (finishes_sys _) (fun h => ?_)
    split
    · exact finishes_bind _ _ (finishes_sys _) (fun _ => finishes_pure _)
    · exact finishes_builtin_cd_to _
  · exact finishes_builtin_cd_to _

theorem finishes_builtin_pwd (args : List (List Char)) : (builtin_pwd args).finishes := by
  unfold builtin_pwd
  refine finishes_bind _ _ (finishes_sys _) (fun g => ?_)
  split <;> exact finishes_bind _ _ (finishes_sys _) (fun _ => finishes_pure _)

theorem finishes_echo_loop (args : List (List Char)) :
    ∀ first, (echo_loop first args).finishes := by
  induction args with
  | nil => intro first; exact finishes_pure _
  | cons a rest ih =>
    intro first
    unfold echo_loop
    refine finishes_bind _ _ ?_ (fun _ => ?_)
    · unfold echo_separator
      split
      · exact finishes_bind _ _ (finishes_sys _) (fun _ => finishes_pure _)
      · exact finishes_pure _
    · exact finishes_bind _ _ (finishes_sys _) (fun _ => ih false)

theorem finishes_builtin_echo (args : List (List Char)) : (builtin_echo args).finishes := by
  unfold builtin_echo
  refine finishes_bind _ _ (finishes_echo_loop _ _) (fun _ => ?_)
  split
  · exact finishes_bind _ _ (finishes_sys _) (fun _ => finishes_pure _)
  · exact finishes_pure _

theorem finishes_env_loop (env : List (List Char)) : (env_loop env).finishes := by
  induction env with
  | nil => exact finishes_pure _
  | cons e rest ih =>
    unfold env_loop
    exact finishes_bind _ _ (finishes_sys _) (fun _ => ih)

theorem finishes_builtin_env (args : List (List Char)) : (builtin_env args).finishes := by
  intro m
  unfold builtin_env
  split
  · simp
  · exact finishes_bind _ _ (finishes_env_loop _) (fun _ => finishes_pure _) m

theorem finishes_builtin_exit (args : List (List Char)) : (builtin_exit args).finishes := by
  intro m
  unfold builtin_exit
  exact finishes_bind _ _ (finishes_sys _) (fun _ => finishes_sys_exit _) m

theorem finishes_execute_builtin_command (cmd : cmd_node_t) (command : List Char) :
    (execute_builtin_command cmd command).finishes := by
  unfold execute_builtin_command
  split
  · exact finishes_builtin_cd _
  · split
    · exact finishes_builtin_pwd _
    · split
      · exact finishes_builtin_echo _
      · split
        · exact finishes_builtin_env _
        · split
          · exact finishes_builtin_exit _
          · exact finishes_pure _

theorem finishes_exec_or_die {α : Type} (cmd : cmd_node_t) :
    (exec_or_die cmd : Proc α).finishes := by
  unfold exec_or_die
  exact finishes_bind _ _ (finishes_sys_execvp _ _)
    (fun _ => finishes_bind _ _ (finishes_sys _) (fun _ => finishes_sys_exit _))

theorem finishes_redirect_input (cmd : cmd_node_t) : (redirect_input cmd).finishes := by
  unfold redirect_input
  split
  · exact finishes_pure _
  · refine finishes_bind _ _ (finishes_sys _) (fun f => ?_)
    split
    · exact finishes_bind _ _ (finishes_sys _) (fun _ => finishes_sys_exit _)
    · exact finishes_bind _ _ (finishes_sys _)
        (fun _ => finishes_bind _ _ (finishes_sys _) (fun _ => finishes_pure _))

theorem finishes_redirect_output (cmd : cmd_node_t) : (redirect_output cmd).finishes := by
  unfold redirect_output
  split
  · exact finishes_pure _
  · refine finishes_bind _ _ (finishes_sys _) (fun f => ?_)
    split
    · exact finishes_bind _ _ (finishes_sys _) (fun _ => finishes_sys_exit _)
    · exact finishes_bind _ _ (finishes_sys _)
        (fun _ => finishes_bind _ _ (finishes_sys _) (fun _ => finishes_pure _))

theorem finishes_execute_external_command (cmd : cmd_node_t) :
    (execute_external_command cmd).finishes := by
  unfold execute_external_command
  refine finishes_bind _ _ (finishes_sys _) (fun pid => ?_)
  split
  · exact finishes_bind _ _ (finishes_redirect_input _)
      (fun _ => finishes_bind _ _ (finishes_redirect_output _) (fun _ => finishes_exec_or_die _))
  · split
    · split
      · exact finishes_bind _ _ (finishes_sys _) (fun _ => finishes_pure _)
      · exact finishes_bind _ _ (finishes_sys _) (fun _ => finishes_pure _)
    · exact finishes_bind _ _ (finishes_sys _) (fun _ => finishes_pure _)

theorem finishes_execute_single_command (cmd : cmd_node_t) :
    (execute_single_command cmd).finishes := by
  unfold execute_single_command
  refine finishes_bind _ _ (finishes_note _) (fun _ => ?_)
  split
  · exact finishes_pure _
  · split
    · exact finishes_execute_builtin_command _ _
    · exact finishes_execute_external_command _

theorem finishes_execute_piped_commands (cmd1 cmd2 : cmd_node_t) :
    (execute_piped_commands cmd1 cmd2).finishes := by
  unfold execute_piped_commands
  refine finishes_bind _ _ (finishes_note _) (fun _ => ?_)
  refine finishes_bind _ _ (finishes_sys _) (fun p => ?_)
  split
  · exact finishes_bind _ _ (finishes_sys _) (fun _ => finishes_pure _)
  · refine finishes_bind _ _ (finishes_sys _) (fun pid1 => ?_)
    split
    · exact finishes_bind _ _ (finishes_sys _) (fun _ => finishes_bind _ _ (finishes_sys _)
        (fun _ => finishes_bind _ _ (finishes_sys _) (fun _ => finishes_exec_or_die _)))
    · refine finishes_bind _ _ (finishes_sys _) (fun pid2 => ?_)
      split
      · exact finishes_bind _ _ (finishes_sys _) (fun _ => finishes_bind _ _ (finishes_sys _)
          (fun _ => finishes_bind _ _ (finishes_sys _) (fun _ => finishes_exec_or_die _)))
      · exact finishes_bind _ _ (finishes_sys _) (fun _ => finishes_bind _ _ (finishes_sys _)
          (fun _ => finishes_bind _ _ (finishes_sys _) (fun _ => finishes_bind _ _ (finishes_sys _)
            (fun _ => finishes_pure _))))

/-- With more passes allowed than the cursor has nodes left, the loop of
`execute_command_chain` does not run out of fuel. -/
theorem finishes_chain_loop (fuel : Nat) :
    ∀ (current : List cmd_node_t) (last_status : Int) (m : Machine),
      current.length < fuel → chain_loop fuel current last_status m ≠ Res.unfinished := by
  induction fuel with
  | zero => intro current last_status m h; omega
  | succ fuel ih =>
    intro current last_status m hlen
    rw [chain_loop_succ]
    cases hi : chain_iter current last_status m with
    | ok step m1 =>
      cases step with
      | next current1 last_status1 =>
        have := chain_iter_next_length _ _ _ _ _ _ hi
        exact ih _ _ _ (by omega)
      | done status => simp
    | exited code m1 => simp
    | replaced m1 => simp
    | unfinished =>
      exfalso
      cases current with
      | nil => simp [chain_iter, Proc.pure_apply] at hi
      | cons cur next =>
        by_cases hp : cur.type = CMD_PIPE
        · cases next with
          | nil =>
            rw [chain_iter_single cur [] last_status m (Or.inr rfl)] at hi
            have := finishes_execute_single_command cur m
            cases hs : execute_single_command cur m <;> simp [hs] at hi this
          | cons nxt after =>
            rw [chain_iter_piped cur nxt after last_status m hp] at hi
            have := finishes_execute_piped_commands cur nxt m
            cases hs : execute_piped_commands cur nxt m <;> simp [hs] at hi this
        · rw [chain_iter_single cur next last_status m (Or.inl hp)] at hi
          have := finishes_execute_single_command cur m
          cases hs : execute_single_command cur m <;> simp [hs] at hi this
          split at hi <;> simp at hi

/-- The fuel given to the loop by `execute_command_chain` is enough on every
chain and machine. -/
theorem finishes_execute_command_chain (chain : command_chain_t) :
    (execute_command_chain chain).finishes := by
  intro m
  unfold execute_command_chain
  split
  · simp [Proc.pure_apply]
  · exact finishes_chain_loop _ _ _ _ (by omega)

/-! ## The parser moves forward and ends -/

theorem skip_blanks_length (s : List Char) : (skip_blanks s).length ≤ s.length := by
  induction s with
  | nil => simp [skip_blanks]
  | cons c cs ih =>
    unfold skip_blanks
    split
    · simp only [List.length_cons]; omega
    · simp

theorem scan_word_length (s : List Char) :
    (scan_word s).1.length + (scan_word s).2.length = s.length := by
  induction s with
  | nil => simp [scan_word]
  | cons c cs ih =>
    unfold scan_word
    split
    · simp only [List.length_cons]; omega
    · simp

theorem scan_quoted_length (quote_char : Char) (s : List Char) :
    ∀ escaped, (scan_quoted quote_char escaped s).1.length +
      (scan_quoted quote_char escaped s).2.length = s.length := by
  induction s with
  | nil => intro escaped; simp [scan_quoted]
  | cons c cs ih =>
    intro escaped
    unfold scan_quoted
    split
    · simp only [List.length_cons]
      have := ih (if c = '\x5c' ∧ escaped = false then true else false)
      omega
    · simp

theorem regular_token_length (current : List Char) :
    (regular_token current).input.length ≤ current.length ∧
      ((regular_token current).token ≠ none →
        (regular_token current).input.length < current.length) := by
  have h := scan_word_length current
  unfold regular_token
  by_cases h1 : (scan_word current).1 = []
  · simp only [h1, if_true]
    exact ⟨by omega, fun hc => absurd rfl hc⟩
  · simp only [h1, if_false]
    have : 0 < (scan_word current).1.length := List.length_pos.mpr h1
    exact ⟨by omega, fun _ => by omega⟩

theorem parse_token_length (s : List Char) :
    (parse_token s).input.length ≤ s.length ∧
      ((parse_token s).token ≠ none → (parse_token s).input.length < s.length) := by
  have hs := skip_blanks_length s
  unfold parse_token
  cases hcur : skip_blanks s with
  | nil => simp
  | cons c cs =>
    rw [hcur] at hs
    simp only [List.length_cons] at hs
    have hreg := regular_token_length (c :: cs)
    simp only [List.length_cons] at hreg
    have hq := scan_quoted_length c cs false
    simp only []
    split_ifs
    · simp only [List.length_cons, ne_eq, not_true_eq_false, false_implies, and_true]; omega
    · simp only [List.length_drop]
      exact ⟨by omega, fun _ => by omega⟩
    · simp only []
      exact ⟨by omega, fun _ => by omega⟩
    · simp only [List.length_drop]
      exact ⟨by omega, fun _ => by omega⟩
    · simp only []
      exact ⟨by omega, fun _ => by omega⟩
    · simp only [List.length_drop]
      exact ⟨by omega, fun _ => by omega⟩
    · exact ⟨by omega, fun h => by have := hreg.2 h; omega⟩
    · exact ⟨by omega, fun h => by have := hreg.2 h; omega⟩

theorem collect_args_length (room : Nat) :
    ∀ s, (collect_args room s).2.length ≤ s.length := by
  induction room with
  | zero =>
    intro s
    have h := (parse_token_length s).1
    unfold collect_args
    generalize parse_token s = t at h ⊢
    obtain ⟨tok, isop, inp⟩ := t
    cases tok with
    | none => exact h
    | some token => cases isop <;> exact h
  | succ room ih =>
    intro s
    have h := (parse_token_length s).1
    unfold collect_args
    generalize parse_token s = t at h ⊢
    obtain ⟨tok, isop, inp⟩ := t
    cases tok with
    | none => exact h
    | some token =>
      cases isop with
      | true => exact h
      | false =>
        have := ih inp
        simp only [] at h ⊢
        exact le_trans this h

theorem parse_single_command_length (s : List Char) :
    (parse_single_command s).1 ≠ none → (parse_single_command s).2.length < s.length := by
  have h := (parse_token_length s).2
  have hc := collect_args_length (MAX_ARGS - 1) (parse_token s).input
  unfold parse_single_command
  generalize parse_token s = t at h hc ⊢
  obtain ⟨tok, isop, inp⟩ := t
  cases tok with
  | none => intro hn; exact absurd rfl hn
  | some token =>
    have hlt := h (by simp)
    simp only [] at hlt hc ⊢
    cases isop with
    | true => intro hn; exact absurd rfl hn
    | false =>
      intro _
      simp only [Bool.false_eq_true, if_false]
      split <;> simp only [] <;> omega

theorem join_operator_length (node : cmd_node_t) (current : List Char) :
    (join_operator node current).2.length ≤ current.length := by
  unfold join_operator
  split
  · split
    · simp
    · split
      · simp
      · split
        · simp
        · split
          · simp
          · simp
  · simp

theorem parse_iter_next (current : List Char) (chain : command_chain_t)
    (current1 : List Char) (chain1 : command_chain_t)
    (h : parse_iter current chain = Sum.inl (current1, chain1)) :
    current1.length < current.length ∧ ∃ node, chain1 = add_command_to_chain chain node := by
  unfold parse_iter at h
  split at h
  · simp at h
  · simp only [] at h
    split at h
    · simp at h
    · have hs := skip_blanks_length current
      cases hp : parse_single_command (skip_blanks current) with
      | mk node cur =>
        rw [hp] at h
        cases node with
        | none => simp at h
        | some node =>
          simp only [Sum.inl.injEq, Prod.mk.injEq] at h
          have h1 := parse_single_command_length (skip_blanks current) (by rw [hp]; simp)
          rw [hp] at h1
          simp only [] at h1
          have h2 := join_operator_length node (skip_blanks cur)
          have h3 := skip_blanks_length cur
          refine ⟨by rw [← h.1]; omega, _, h.2.symm⟩

/-- With more passes allowed than the cursor has characters left, the loop of
`parse_command_line` ends, and the chain it returns starts with the commands
that were already in the chain. -/
theorem parse_loop_total (fuel : Nat) :
    ∀ (current : List Char) (chain : command_chain_t), current.length < fuel →
      ∃ result, parse_loop fuel current chain = some result ∧ chain.head <+: result.head := by
  induction fuel with
  | zero => intro current chain h; omega
  | succ fuel ih =>
    intro current chain hlen
    rw [parse_loop_succ]
    cases hi : parse_iter current chain with
    | inl st =>
      obtain ⟨cur1, chain1⟩ := st
      obtain ⟨hlt, node, hnode⟩ := parse_iter_next _ _ _ _ hi
      obtain ⟨result, hres, hpre⟩ := ih cur1 chain1 (by omega)
      refine ⟨result, hres, ?_⟩
      rw [hnode] at hpre
      exact List.IsPrefix.trans (List.prefix_append _ _) hpre
    | inr c =>
      have hc : c = chain := by
        unfold parse_iter at hi
        split at hi
        · simpa using hi.symm
        · simp only [] at hi
          split at hi
          · simpa using hi.symm
          · split at hi
            · simpa using hi.symm
            · simp at hi
      subst hc
      exact ⟨c, rfl, List.prefix_refl _⟩

/-- Function `parse_command_line` returns a chain on every line. -/
theorem parse_command_line_total (line : List Char) :
    ∃ result, parse_command_line line = some result := by
  obtain ⟨result, h, _⟩ := parse_loop_total (line.length + 1) line create_command_chain (by omega)
  exact ⟨result, h⟩

/-! ## Quotes -/

theorem skip_blanks_idem (s : List Char) : skip_blanks (skip_blanks s) = skip_blanks s := by
  induction s with
  | nil => rfl
  | cons c cs ih =>
    by_cases h : c = ' ' ∨ c = '\t'
    · simp only [skip_blanks, h, if_true, ih]
    · have e : skip_blanks (c :: cs) = c :: cs := by simp only [skip_blanks, h, if_false]
      rw [e, e]

theorem parse_token_skip_blanks (s : List Char) : parse_token (skip_blanks s) = parse_token s := by
  unfold parse_token
  rw [skip_blanks_idem]

theorem join_operator_command (node : cmd_node_t) (current : List Char) :
    (join_operator node current).1.command = node.command := by
  unfold join_operator
  split_ifs <;> rfl

/-- When the first token of a line is a word, `parse_command_line` returns a
chain whose first command has that word as its name. -/
theorem parse_command_line_first (line token input : List Char)
    (h : parse_token line = { token := some token, is_operator := false, input := input }) :
    ∃ chain node tail, parse_command_line line = some chain ∧ chain.head = node :: tail ∧
      node.command = some token := by
  have hpeek : ∀ s, parse_token s = { token := some token, is_operator := false, input := input } →
      skip_blanks s = s → peek s ≠ '\x00' := by
    intro s hs hskip hp
    unfold parse_token at hs
    rw [hskip] at hs
    cases s with
    | nil => simp at hs
    | cons c cs =>
      simp only [peek] at hp
      simp [hp] at hs
  have h1 : peek (skip_blanks line) ≠ '\x00' :=
    hpeek _ (by rw [parse_token_skip_blanks]; exact h) (skip_blanks_idem line)
  have h0 : peek line ≠ '\x00' := by
    intro hp
    apply h1
    cases line with
    | nil => rfl
    | cons c cs =>
      simp only [peek] at hp
      subst hp
      simp [skip_blanks, peek]
  have hcmd : ∃ node cur, parse_single_command (skip_blanks line) = (some node, cur) ∧
      node.command = some token := by
    unfold parse_single_command
    rw [parse_token_skip_blanks, h]
    simp only [Bool.false_eq_true, if_false]
    split
    · exact ⟨_, _, rfl, rfl⟩
    · exact ⟨_, _, rfl, rfl⟩
  obtain ⟨node, cur, hps, hname⟩ := hcmd
  have hiter : parse_iter line create_command_chain =
      Sum.inl ((join_operator node (skip_blanks cur)).2,
        add_command_to_chain create_command_chain (join_operator node (skip_blanks cur)).1) := by
    unfold parse_iter
    rw [if_neg h0]
    simp only []
    rw [if_neg h1, hps]
  have hlt := (parse_iter_next _ _ _ _ hiter).1
  obtain ⟨result, hres, hpre⟩ := parse_loop_total line.length _
    (add_command_to_chain create_command_chain (join_operator node (skip_blanks cur)).1) hlt
  obtain ⟨tail, htail⟩ := hpre
  refine ⟨result, (join_operator node (skip_blanks cur)).1, tail, ?_, ?_, ?_⟩
  · unfold parse_command_line
    rw [parse_loop_succ, hiter]
    exact hres
  · rw [← htail]
    rfl
  · rw [join_operator_command, hname]

theorem scan_word_eq (s : List Char) :
    scan_word s = (s.takeWhile (fun c => !word_end c), s.dropWhile (fun c => !word_end c)) := by
  induction s with
  | nil => rfl
  | cons c cs ih =>
    by_cases h : c ≠ '\x00' ∧ c ≠ ' ' ∧ c ≠ '\t' ∧ c ≠ '\n' ∧ c ≠ '|' ∧ c ≠ '&' ∧ c ≠ ';'
    · have hw : word_end c = false := by
        obtain ⟨h0, h1, h2, h3, h4, h5, h6⟩ := h
        simp [word_end, h0, h1, h2, h3, h4, h5, h6]
      rw [scan_word, if_pos h, ih]
      simp [hw]
    · have hw : word_end c = true := by
        simp only [word_end, decide_eq_true_eq]
        by_contra hc
        apply h
        simp only [not_or] at hc
        exact hc
      rw [scan_word, if_neg h]
      simp [hw]

theorem draft04_scan_word_eq (s : List Char) :
    Draft04.scan_word s =
      (s.takeWhile (fun c => !Draft04.word_end c), s.dropWhile (fun c => !Draft04.word_end c)) := by
  induction s with
  | nil => rfl
  | cons c cs ih =>
    by_cases h : c ≠ '\x00' ∧ c ≠ ' ' ∧ c ≠ '\t' ∧ c ≠ '\n'
    · have hw : Draft04.word_end c = false := by
        obtain ⟨h0, h1, h2, h3⟩ := h
        simp [Draft04.word_end, h0, h1, h2, h3]
      rw [Draft04.scan_word, if_pos h, ih]
      simp [hw]
    · have hw : Draft04.word_end c = true := by
        simp only [Draft04.word_end, decide_eq_true_eq]
        by_contra hc
        apply h
        simp only [not_or] at hc
        exact hc
      rw [Draft04.scan_word, if_neg h]
      simp [hw]

theorem scan_quoted_unclosed (quote_char : Char) (hq : quote_char ≠ '\x00') (rest : List Char)
    (hno : quote_char ∉ rest) :
    ∀ escaped, peek (scan_quoted quote_char escaped rest).2 ≠ quote_char := by
  induction rest with
  | nil => intro escaped; simpa [scan_quoted, peek] using hq.symm
  | cons c cs ih =>
    intro escaped
    have hc : c ≠ quote_char := fun e => hno (by simp [e])
    have hcs : quote_char ∉ cs := fun e => hno (by simp [e])
    unfold scan_quoted
    split
    · exact ih hcs _
    · rename_i hcond
      simp only [peek]
      exact hc

theorem scan_quoted_closed (quote_char : Char) (text rest : List Char)
    (hno : quote_char ∉ text) (hbs : '\x5c' ∉ text) (hnul : '\x00' ∉ text) :
    scan_quoted quote_char false (text ++ quote_char :: rest) = (text, quote_char :: rest) := by
  induction text with
  | nil => simp [scan_quoted]
  | cons c cs ih =>
    have h1 : c ≠ quote_char := fun e => hno (by simp [e])
    have h2 : c ≠ '\x5c' := fun e => hbs (by simp [e])
    have h3 : c ≠ '\x00' := fun e => hnul (by simp [e])
    have ih' := ih (fun e => hno (by simp [e])) (fun e => hbs (by simp [e]))
      (fun e => hnul (by simp [e]))
    simp [scan_quoted, h1, h2, h3, ih']

/-- C11 as stated fails: on the text `"a b c` `parse_token` returns the word `"a`,
made of the quote character and the text after it, in `bolt-minishell-05` and in
`bolt-minishell-04`, and the line `echo "a b c` parses to the command `echo`
with the three arguments `"a`, `b`, `c`. -/
theorem unclosed_quote_is_parsed :
    parse_token ('\x22' :: "a b c".toList) =
        { token := some ('\x22' :: ['a']), is_operator := false, input := " b c".toList } ∧
      Draft04.parse_token ('\x22' :: "a b c".toList) =
        (some ('\x22' :: ['a']), " b c".toList) ∧
      parse_command_line ("echo ".toList ++ '\x22' :: "a b c".toList) =
        some (chain_of [{ plain_node "echo".toList CMD_SIMPLE with
          args := ['\x22' :: ['a'], ['b'], ['c']], argc := 3 }]) := by
  decide

/-- C11 as amended: when a line starts, after blanks, with a quote character
that does not occur again in the line, there is no parse error: `parse_token`
takes the quote as an ordinary character and returns the regular word made of
the quote and the text after it, in `bolt-minishell-05` up to the next NUL,
blank, tab, newline, `|`, `&` or `;`, in `bolt-minishell-04` up to the next NUL,
blank, tab or newline only, the cursor being left there; and
`parse_command_line` returns a chain whose first command has the word of
`bolt-minishell-05` as its name. -/
theorem unclosed_quote_is_literal (bl rest : List Char) (quote_char : Char)
    (hbl : blanks bl) (hq : quote_char = '\x22' ∨ quote_char = '\x27')
    (hno : quote_char ∉ rest) :
    parse_token (bl ++ quote_char :: rest) =
        { token := some (quote_char :: rest.takeWhile (fun x => !word_end x)),
          is_operator := false, input := rest.dropWhile (fun x => !word_end x) } ∧
      Draft04.parse_token (bl ++ quote_char :: rest) =
        (some (quote_char :: rest.takeWhile (fun x => !Draft04.word_end x)),
          rest.dropWhile (fun x => !Draft04.word_end x)) ∧
      ∃ chain node tail, parse_command_line (bl ++ quote_char :: rest) = some chain ∧
        chain.head = node :: tail ∧
        node.command = some (quote_char :: rest.takeWhile (fun x => !word_end x)) := by
  have hq0 : quote_char ≠ '\x00' := by rcases hq with h | h <;> rw [h] <;> decide
  have hun := scan_quoted_unclosed quote_char hq0 rest hno false
  have hskip : skip_blanks (bl ++ quote_char :: rest) = quote_char :: rest := by
    rw [skip_blanks_append bl _ hbl]
    rcases hq with h | h <;> rw [h] <;> simp [skip_blanks]
  have htok : parse_token (bl ++ quote_char :: rest) =
      { token := some (quote_char :: (scan_word rest).1), is_operator := false,
        input := (scan_word rest).2 } := by
    unfold parse_token
    rw [hskip]
    rcases hq with h | h <;> subst h <;> simp [hun, regular_token, scan_word]
  have htok4 : Draft04.parse_token (bl ++ quote_char :: rest) =
      (some (quote_char :: (Draft04.scan_word rest).1), (Draft04.scan_word rest).2) := by
    unfold Draft04.parse_token
    rw [hskip]
    rcases hq with h | h <;> subst h <;>
      simp [hun, Draft04.regular_token, Draft04.scan_word]
  rw [scan_word_eq] at htok
  rw [draft04_scan_word_eq] at htok4
  exact ⟨htok, htok4, parse_command_line_first _ _ _ htok⟩

/-- C11 as amended, on the line `"a|b c`: the word is `"a` in `bolt-minishell-05`
and `"a|b` in `bolt-minishell-04`. -/
theorem unclosed_quote_is_literal_witness :
    parse_token ([] ++ '\x22' :: "a|b c".toList) =
        { token := some ['\x22', 'a'], is_operator := false, input := "|b c".toList } ∧
      Draft04.parse_token ([] ++ '\x22' :: "a|b c".toList) =
        (some ['\x22', 'a', '|', 'b'], " c".toList) ∧
      ∃ chain node tail,
        parse_command_line ([] ++ '\x22' :: "a|b c".toList) = some chain ∧
        chain.head = node :: tail ∧ node.command = some ['\x22', 'a'] :=
  unclosed_quote_is_literal [] "a|b c".toList '\x22' (by decide) (by decide) (by decide)

/-- C12: for every text without the enclosing quote character, backslash or NUL,
`parse_token` on blanks, the quote, the text, the quote and any rest returns
exactly the text as one token that is not an operator and leaves the cursor on
the rest; and the line `echo "a  b"` parses to the single command `echo` with
the one argument `a  b`. -/
theorem quoted_run_is_one_token (bl text rest : List Char) (quote_char : Char)
    (hbl : blanks bl) (hq : quote_char = '\x22' ∨ quote_char = '\x27')
    (hno : quote_char ∉ text) (hbs : '\x5c' ∉ text) (hnul : '\x00' ∉ text) :
    parse_token (bl ++ quote_char :: (text ++ quote_char :: rest)) =
        { token := some text, is_operator := false, input := rest } ∧
      parse_command_line ("echo ".toList ++ '\x22' :: ("a  b".toList ++ ['\x22'])) =
        some (chain_of [{ plain_node "echo".toList CMD_SIMPLE with
          args := ["a  b".toList], argc := 1 }]) := by
  refine ⟨?_, by decide⟩
  have hsc := scan_quoted_closed quote_char text rest hno hbs hnul
  unfold parse_token
  rw [skip_blanks_append bl _ hbl]
  rcases hq with h | h <;> subst h <;> simp [skip_blanks, hsc, peek]

/-- C12, on the text `  'a | b;c' tail`. -/
theorem quoted_run_is_one_token_witness :
    parse_token ("  ".toList ++ '\x27' :: ("a | b;c".toList ++ '\x27' :: " tail".toList)) =
        { token := some "a | b;c".toList, is_operator := false, input := " tail".toList } ∧
      parse_command_line ("echo ".toList ++ '\x22' :: ("a  b".toList ++ ['\x22'])) =
        some (chain_of [{ plain_node "echo".toList CMD_SIMPLE with
          args := ["a  b".toList], argc := 1 }]) :=
  quoted_run_is_one_token "  ".toList "a | b;c".toList " tail".toList '\x27' (by decide)
    (by decide) (by decide) (by decide) (by decide)

/-! ## Lines of plain words -/

theorem words_line_cons (first sep w : List Char) (tl : List (List Char × List Char)) :
    words_line first ((sep, w) :: tl) = first ++ (sep ++ words_line w tl) := by
  simp [words_line]

theorem scan_word_tail (tl : List (List Char × List Char))
    (htl : ∀ p ∈ tl, blanks p.1 ∧ p.1 ≠ [] ∧ plain_word p.2) :
    scan_word (tl.map (fun p => p.1 ++ p.2)).flatten =
      ([], (tl.map (fun p => p.1 ++ p.2)).flatten) := by
  cases tl with
  | nil => rfl
  | cons p tl =>
    obtain ⟨hb, hne, _⟩ := htl p (by simp)
    obtain ⟨sep, w⟩ := p
    cases sep with
    | nil => exact absurd rfl hne
    | cons c cs =>
      have hc : c = ' ' ∨ c = '\t' := hb c (by simp)
      simp only [List.map_cons, List.flatten_cons, List.cons_append]
      apply scan_word_stop
      rcases hc with hc | hc <;> simp [hc]

theorem parse_token_blanks_word (bl w rest : List Char) (hbl : blanks bl) (hw : plain_word w)
    (hrest : scan_word rest = ([], rest)) :
    parse_token (bl ++ (w ++ rest)) = { token := some w, is_operator := false, input := rest } := by
  have e : parse_token (bl ++ (w ++ rest)) = parse_token (w ++ rest) := by
    unfold parse_token
    rw [skip_blanks_append bl _ hbl]
  rw [e, parse_token_word w rest hw hrest]

theorem collect_args_word (room : Nat) (s token input : List Char)
    (h : parse_token s = { token := some token, is_operator := false, input := input }) :
    collect_args (room + 1) s = (token :: (collect_args room input).1, (collect_args room input).2) := by
  rw [collect_args]
  simp [h]

theorem collect_args_words (tl : List (List Char × List Char)) :
    ∀ (room : Nat) (bl w : List Char), tl.length + 1 ≤ room → blanks bl → plain_word w →
      (∀ p ∈ tl, blanks p.1 ∧ p.1 ≠ [] ∧ plain_word p.2) →
      collect_args room (bl ++ words_line w tl) = (w :: tl.map (fun p => p.2), []) := by
  induction tl with
  | nil =>
    intro room bl w hroom hbl hw _
    obtain ⟨r, rfl⟩ : ∃ r, room = r + 1 := ⟨room - 1, by simp at hroom; omega⟩
    have ht := parse_token_blanks_word bl w [] hbl hw rfl
    simp only [words_line, List.map_nil, List.flatten_nil]
    rw [collect_args_word r _ w [] ht,
      collect_args_end r [] [] (parse_token_blanks [] (by intro c hc; simp at hc))]
  | cons p tl ih =>
    intro room bl w hroom hbl hw htl
    obtain ⟨r, rfl⟩ : ∃ r, room = r + 1 := ⟨room - 1, by simp at hroom; omega⟩
    obtain ⟨sep, w2⟩ := p
    obtain ⟨hb, hne, hw2⟩ := htl (sep, w2) (by simp)
    have htl' : ∀ q ∈ tl, blanks q.1 ∧ q.1 ≠ [] ∧ plain_word q.2 :=
      fun q hq => htl q (by simp [hq])
    have hstop : scan_word (sep ++ words_line w2 tl) = ([], sep ++ words_line w2 tl) := by
      have := scan_word_tail ((sep, w2) :: tl) htl
      simpa [words_line] using this
    have ht := parse_token_blanks_word bl w (sep ++ words_line w2 tl) hbl hw hstop
    rw [words_line_cons, collect_args_word r _ w _ ht,
      ih r sep w2 (by simp at hroom; omega) hb hw2 htl']
    simp

theorem parse_single_command_words (first : List Char) (rest : List (List Char × List Char))
    (hfirst : plain_word first)
    (hrest : ∀ p ∈ rest, blanks p.1 ∧ p.1 ≠ [] ∧ plain_word p.2)
    (hk : rest.length ≤ MAX_ARGS - 1) :
    parse_single_command (words_line first rest) =
      (some (word_node first (rest.map (fun p => p.2))), []) := by
  have hstop := scan_word_tail rest hrest
  have ht : parse_token (words_line first rest) =
      { token := some first, is_operator := false,
        input := (rest.map (fun p => p.1 ++ p.2)).flatten } :=
    parse_token_word first _ hfirst hstop
  have hargs : collect_args (MAX_ARGS - 1) (rest.map (fun p => p.1 ++ p.2)).flatten =
      (rest.map (fun p => p.2), []) := by
    cases rest with
    | nil =>
      exact collect_args_end _ [] [] (parse_token_blanks [] (by intro c hc; simp at hc))
    | cons p tl =>
      obtain ⟨sep, w2⟩ := p
      obtain ⟨hb, _, hw2⟩ := hrest (sep, w2) (by simp)
      have := collect_args_words tl (MAX_ARGS - 1) sep w2 (by simpa using hk) hb hw2
        (fun q hq => hrest q (by simp [hq]))
      simpa [words_line] using this
  unfold parse_single_command
  rw [ht]
  simp only [Bool.false_eq_true, if_false, hargs]
  cases rest with
  | nil => rfl
  | cons p tl => simp [word_node]

theorem cstr_of_no_nul (s : List Char) (h : '\x00' ∉ s) : cstr s = s := by
  unfold cstr
  rw [List.takeWhile_eq_self_iff]
  intro c hc
  simp only [ne_eq, decide_not, Bool.not_eq_eq_eq_not, Bool.not_true, decide_eq_false_iff_not]
  intro e
  exact h (e ▸ hc)

theorem no_nul_of_blanks (bl : List Char) (hbl : blanks bl) : '\x00' ∉ bl := by
  intro h
  rcases hbl _ h with e | e <;> exact absurd e (by decide)

theorem no_nul_of_plain_word (w : List Char) (hw : plain_word w) : '\x00' ∉ w := by
  intro h
  exact (hw.2 _ h).1 rfl

theorem no_nul_words_line (first : List Char) (rest : List (List Char × List Char))
    (hfirst : plain_word first) (hrest : ∀ p ∈ rest, blanks p.1 ∧ p.1 ≠ [] ∧ plain_word p.2) :
    '\x00' ∉ words_line first rest := by
  intro h
  simp only [words_line, List.mem_append, List.mem_flatten, List.mem_map] at h
  rcases h with h | ⟨l, ⟨p, hp, rfl⟩, hl⟩
  · exact no_nul_of_plain_word _ hfirst h
  · obtain ⟨hb, _, hw⟩ := hrest p hp
    rcases List.mem_append.mp hl with h | h
    · exact no_nul_of_blanks _ hb h
    · exact no_nul_of_plain_word _ hw h

theorem strtok_skip_append (bl rest : List Char) (hbl : blanks bl) :
    ShellC.strtok_skip (bl ++ rest) = ShellC.strtok_skip rest := by
  induction bl with
  | nil => rfl
  | cons c cs ih =>
    have hc : c = ' ' ∨ c = '\t' := hbl c (by simp)
    have hcs : blanks cs := fun d hd => hbl d (by simp [hd])
    rcases hc with hc | hc <;> simp [ShellC.strtok_skip, hc, ih hcs]

theorem strtok_scan_plain (w rest : List Char) (hw : ∀ c ∈ w, plain_char c)
    (hrest : ShellC.strtok_scan rest = ([], rest)) :
    ShellC.strtok_scan (w ++ rest) = (w, rest) := by
  induction w with
  | nil => simpa using hrest
  | cons c cs ih =>
    obtain ⟨h0, h1, h2, h3, _⟩ := hw c (by simp)
    have hcs : ∀ d ∈ cs, plain_char d := fun d hd => hw d (by simp [hd])
    simp [ShellC.strtok_scan, h0, h1, h2, h3, ih hcs]

theorem strtok_blanks_word (bl w rest : List Char) (hbl : blanks bl) (hw : plain_word w)
    (hrest : ShellC.strtok_scan rest = ([], rest)) :
    ShellC.strtok (bl ++ (w ++ rest)) =
      (some w, if peek rest = '\x00' then rest else rest.drop 1) := by
  obtain ⟨hne, hall⟩ := hw
  cases w with
  | nil => exact absurd rfl hne
  | cons c cs =>
    obtain ⟨h0, h1, h2, h3, _⟩ := hall c (by simp)
    have hs := strtok_scan_plain (c :: cs) rest hall hrest
    simp only [List.cons_append] at hs
    unfold ShellC.strtok
    rw [strtok_skip_append bl _ hbl]
    simp [ShellC.strtok_skip, h0, h1, h2, h3, peek_cons, hs]

theorem strtok_blanks (bl : List Char) (hbl : blanks bl) : (ShellC.strtok bl).1 = none := by
  have h := strtok_skip_append bl [] hbl
  simp only [List.append_nil] at h
  unfold ShellC.strtok
  rw [h]
  simp [ShellC.strtok_skip, peek]

theorem shellc_collect_args_end (room : Nat) (s : List Char) (h : (ShellC.strtok s).1 = none) :
    ShellC.collect_args room s = [] := by
  rw [ShellC.collect_args]
  cases hs : ShellC.strtok s with
  | mk tok rest =>
    rw [hs] at h
    simp only [] at h
    subst h
    rfl

theorem shellc_collect_args_words (tl : List (List Char × List Char)) :
    ∀ (room : Nat) (bl w : List Char), tl.length + 1 ≤ room → blanks bl → plain_word w →
      (∀ p ∈ tl, blanks p.1 ∧ p.1 ≠ [] ∧ plain_word p.2) →
      ShellC.collect_args room (bl ++ words_line w tl) = w :: tl.map (fun p => p.2) := by
  induction tl with
  | nil =>
    intro room bl w hroom hbl hw _
    obtain ⟨r, rfl⟩ : ∃ r, room = r + 1 := ⟨room - 1, by simp at hroom; omega⟩
    have ht := strtok_blanks_word bl w [] hbl hw rfl
    simp only [words_line, List.map_nil, List.flatten_nil]
    rw [ShellC.collect_args, ht]
    simp only [peek, if_true]
    rw [shellc_collect_args_end r [] (strtok_blanks [] (by intro c hc; simp at hc))]
  | cons p tl ih =>
    intro room bl w hroom hbl hw htl
    obtain ⟨r, rfl⟩ : ∃ r, room = r + 1 := ⟨room - 1, by simp at hroom; omega⟩
    obtain ⟨sep, w2⟩ := p
    obtain ⟨hb, hne, hw2⟩ := htl (sep, w2) (by simp)
    have htl' : ∀ q ∈ tl, blanks q.1 ∧ q.1 ≠ [] ∧ plain_word q.2 :=
      fun q hq => htl q (by simp [hq])
    cases sep with
    | nil => exact absurd rfl hne
    | cons c cs =>
      have hc : c = ' ' ∨ c = '\t' := hb c (by simp)
      have hcs : blanks cs := fun d hd => hb d (by simp [hd])
      have hstop : ShellC.strtok_scan (c :: cs ++ words_line w2 tl) =
          ([], c :: cs ++ words_line w2 tl) := by
        rcases hc with hc | hc <;> simp [ShellC.strtok_scan, hc]
      have hc0 : c ≠ '\x00' := by rcases hc with hc | hc <;> rw [hc] <;> decide
      have ht := strtok_blanks_word bl w (c :: cs ++ words_line w2 tl) hbl hw hstop
      rw [words_line_cons, ShellC.collect_args, ht]
      simp only [List.cons_append, peek_cons, if_neg hc0, List.drop_succ_cons, List.drop_zero]
      rw [ih r cs w2 (by simp at hroom; omega) hcs hw2 htl']
      simp

theorem shellc_parse_words (first : List Char) (rest : List (List Char × List Char))
    (hfirst : plain_word first)
    (hrest : ∀ p ∈ rest, blanks p.1 ∧ p.1 ≠ [] ∧ plain_word p.2)
    (hk : rest.length ≤ MAX_ARGS - 1) :
    ShellC.parse_command_line (words_line first rest) =
      chain_of [word_node first (rest.map (fun p => p.2))] := by
  unfold ShellC.parse_command_line
  rw [cstr_of_no_nul _ (no_nul_words_line first rest hfirst hrest)]
  cases rest with
  | nil =>
    have ht := strtok_blanks_word [] first [] (by intro c hc; simp at hc) hfirst rfl
    simp only [List.nil_append] at ht
    simp only [words_line, List.map_nil, List.flatten_nil]
    rw [ht]
    simp only [peek, if_true]
    rw [shellc_collect_args_end _ [] (strtok_blanks [] (by intro c hc; simp at hc))]
    rfl
  | cons p tl =>
    obtain ⟨sep, w2⟩ := p
    obtain ⟨hb, hne, hw2⟩ := hrest (sep, w2) (by simp)
    cases sep with
    | nil => exact absurd rfl hne
    | cons c cs =>
      have hc : c = ' ' ∨ c = '\t' := hb c (by simp)
      have hcs : blanks cs := fun d hd => hb d (by simp [hd])
      have hstop : ShellC.strtok_scan (c :: cs ++ words_line w2 tl) =
          ([], c :: cs ++ words_line w2 tl) := by
        rcases hc with hc | hc <;> simp [ShellC.strtok_scan, hc]
      have hc0 : c ≠ '\x00' := by rcases hc with hc | hc <;> rw [hc] <;> decide
      have ht := strtok_blanks_word [] first (c :: cs ++ words_line w2 tl)
        (by intro c hc; simp at hc) hfirst hstop
      simp only [List.nil_append] at ht
      rw [words_line_cons, ht]
      simp only [List.cons_append, peek_cons, if_neg hc0, List.drop_succ_cons, List.drop_zero]
      rw [shellc_collect_args_words tl (MAX_ARGS - 1) cs w2 (by simpa using hk) hcs hw2
        (fun q hq => hrest q (by simp [hq]))]
      simp [word_node, chain_of, add_command_to_chain, create_command_chain]

set_option maxRecDepth 200000 in
/-- C13 as stated fails: on the line of 65 words `a`, `parse_command_line` (of
`bolt-minishell-05` and of `shell.c`) returns one command with 63 arguments,
not the 64 words that follow the first. -/
theorem long_line_loses_words :
    parse_command_line (words_line ['a'] (List.replicate 64 ([' '], ['a']))) =
        some (chain_of [word_node ['a'] (List.replicate 63 ['a'])]) ∧
      ShellC.parse_command_line (words_line ['a'] (List.replicate 64 ([' '], ['a']))) =
        chain_of [word_node ['a'] (List.replicate 63 ['a'])] := by
  decide

/-- C13 as amended: a line of a plain word followed by at most `MAX_ARGS - 1 = 63`
further plain words, each after a non-empty run of blanks and tabs, parses (in
`bolt-minishell-05` and in `shell.c`) to the chain of exactly one command, whose
name is the first word and whose arguments are the further words in order. -/
theorem words_parse_to_one_command (first : List Char) (rest : List (List Char × List Char))
    (hfirst : plain_word first)
    (hrest : ∀ p ∈ rest, blanks p.1 ∧ p.1 ≠ [] ∧ plain_word p.2)
    (hk : rest.length ≤ MAX_ARGS - 1) :
    parse_command_line (words_line first rest) =
        some (chain_of [word_node first (rest.map (fun p => p.2))]) ∧
      ShellC.parse_command_line (words_line first rest) =
        chain_of [word_node first (rest.map (fun p => p.2))] := by
  refine ⟨?_, shellc_parse_words first rest hfirst hrest hk⟩
  have hlen : 1 ≤ (words_line first rest).length := by
    obtain ⟨h, _⟩ := hfirst
    cases first with
    | nil => exact absurd rfl h
    | cons c cs => simp [words_line]
  apply parse_command_line_of_loop _ 2 _ (by omega)
  have e : words_line first rest =
      [] ++ first ++ (rest.map (fun p => p.1 ++ p.2)).flatten := by simp [words_line]
  have hps := parse_single_command_words first rest hfirst hrest hk
  rw [parse_loop_succ]
  rw [e, parse_iter_word [] first _ _ (by intro c hc; simp at hc) hfirst _ _
    (by rw [← List.nil_append first, ← e]; exact hps)]
  simp only [skip_blanks, join_operator_end]
  rw [parse_loop_succ, parse_iter_end]
  rfl

/-- C13 as amended, on the line `ls -l  -a`. -/
theorem words_parse_to_one_command_witness :
    parse_command_line (words_line "ls".toList [([' '], "-l".toList), ([' ', '\t'], "-a".toList)]) =
        some (chain_of [word_node "ls".toList ["-l".toList, "-a".toList]]) ∧
      ShellC.parse_command_line
          (words_line "ls".toList [([' '], "-l".toList), ([' ', '\t'], "-a".toList)]) =
        chain_of [word_node "ls".toList ["-l".toList, "-a".toList]] :=
  words_parse_to_one_command "ls".toList [([' '], "-l".toList), ([' ', '\t'], "-a".toList)]
    (by decide) (by decide) (by decide)

/-- C14: a line made of blanks and tabs only, the empty line included, parses (in
`bolt-minishell-05` and in `shell.c`) to the chain with no command, and
`execute_command_chain` on that chain returns `0` and leaves the machine as it
was: nothing is run and `ctx.last_exit_status` keeps its value. -/
theorem blank_line_runs_nothing (bl : List Char) (m : Machine) (hbl : blanks bl) :
    parse_command_line bl = some create_command_chain ∧
      ShellC.parse_command_line bl = create_command_chain ∧
      create_command_chain.head = [] ∧
      execute_command_chain create_command_chain m = Res.ok 0 m := by
  refine ⟨?_, ?_, rfl, rfl⟩
  · apply parse_command_line_of_loop _ 1 _ (by omega)
    have hi : parse_iter bl create_command_chain = Sum.inr create_command_chain := by
      unfold parse_iter
      split
      · rfl
      · simp only [skip_blanks_of_blanks bl hbl, peek, if_true]
    rw [parse_loop_succ, hi]
  · unfold ShellC.parse_command_line
    rw [cstr_of_no_nul _ (no_nul_of_blanks bl hbl)]
    have h := strtok_blanks bl hbl
    cases hs : ShellC.strtok bl with
    | mk tok rest =>
      rw [hs] at h
      simp only [] at h
      subst h
      rfl

/-- C14, on the line made of a blank, a tab and a blank. -/
theorem blank_line_runs_nothing_witness :
    parse_command_line [' ', '\t', ' '] = some create_command_chain ∧
      ShellC.parse_command_line [' ', '\t', ' '] = create_command_chain ∧
      create_command_chain.head = [] ∧
      execute_command_chain create_command_chain (sample_machine []) =
        Res.ok 0 (sample_machine []) :=
  blank_line_runs_nothing [' ', '\t', ' '] (sample_machine []) (by decide)

/-! ## Builtin dispatch -/

theorem streq_iff (a b : List Char) (ha : '\x00' ∉ a) (hb : '\x00' ∉ b) :
    streq a b = true ↔ a = b := by
  unfold streq
  rw [cstr_of_no_nul a ha, cstr_of_no_nul b hb]
  simp

theorem is_builtin_command_iff (name : List Char) (hnul : '\x00' ∉ name) :
    is_builtin_command name = 1 ↔ name ∈ builtin_names := by
  have h1 := streq_iff name "cd".toList hnul (by decide)
  have h2 := streq_iff name "pwd".toList hnul (by decide)
  have h3 := streq_iff name "echo".toList hnul (by decide)
  have h4 := streq_iff name "env".toList hnul (by decide)
  have h5 := streq_iff name "exit".toList hnul (by decide)
  unfold is_builtin_command builtin_names
  simp only [List.any_cons, List.any_nil, Bool.or_false, Bool.or_eq_true, h1, h2, h3, h4, h5,
    List.mem_cons, List.mem_singleton, List.not_mem_nil, or_false]
  constructor
  · intro h
    by_contra hc
    rw [if_neg hc] at h
    exact absurd h (by decide)
  · intro h
    rw [if_pos h]

theorem is_builtin_command_values (name : List Char) :
    is_builtin_command name = 1 ∨ is_builtin_command name = 0 := by
  unfold is_builtin_command
  split
  · exact Or.inl rfl
  · exact Or.inr rfl

/-- C15: for a name without NUL, `is_builtin_command` returns `1` exactly when
the name is one of `cd`, `pwd`, `echo`, `env`, `exit`, and `0` otherwise; for
each of the five names `execute_single_command` runs the matching builtin
function in the calling process, and for every other name it runs
`execute_external_command`. -/
theorem builtin_dispatch (cmd : cmd_node_t) (name : List Char)
    (hcmd : cmd.command = some name) (hnul : '\x00' ∉ name) :
    (is_builtin_command name = 1 ↔ name ∈ builtin_names) ∧
      (name ∉ builtin_names → is_builtin_command name = 0) ∧
      (name = "cd".toList →
        execute_single_command cmd = (note (event.single cmd) >>= fun _ => builtin_cd cmd.args)) ∧
      (name = "pwd".toList →
        execute_single_command cmd = (note (event.single cmd) >>= fun _ => builtin_pwd cmd.args)) ∧
      (name = "echo".toList →
        execute_single_command cmd = (note (event.single cmd) >>= fun _ => builtin_echo cmd.args)) ∧
      (name = "env".toList →
        execute_single_command cmd = (note (event.single cmd) >>= fun _ => builtin_env cmd.args)) ∧
      (name = "exit".toList →
        execute_single_command cmd = (note (event.single cmd) >>= fun _ => builtin_exit cmd.args)) ∧
      (name ∉ builtin_names →
        execute_single_command cmd =
          (note (event.single cmd) >>= fun _ => execute_external_command cmd)) := by
  have hiff := is_builtin_command_iff name hnul
  have hzero : name ∉ builtin_names → is_builtin_command name = 0 := by
    intro h
    rcases is_builtin_command_values name with h1 | h0
    · exact absurd (hiff.mp h1) h
    · exact h0
  have hunf : execute_single_command cmd =
      (note (event.single cmd) >>= fun _ =>
        if is_builtin_command name ≠ 0 then execute_builtin_command cmd name
        else execute_external_command cmd) := by
    unfold execute_single_command
    simp only [hcmd]
  refine ⟨hiff, hzero, ?_, ?_, ?_, ?_, ?_, ?_⟩
  · intro h
    subst h
    rw [hunf]
    rfl
  · intro h
    subst h
    rw [hunf]
    rfl
  · intro h
    subst h
    rw [hunf]
    rfl
  · intro h
    subst h
    rw [hunf]
    rfl
  · intro h
    subst h
    rw [hunf]
    rfl
  · intro h
    rw [hunf, hzero h]
    rfl

/-- C15, on the command `echo`. -/
theorem builtin_dispatch_witness :
    (is_builtin_command "echo".toList = 1 ↔ "echo".toList ∈ builtin_names) ∧
      ("echo".toList ∉ builtin_names → is_builtin_command "echo".toList = 0) ∧
      ("echo".toList = "cd".toList →
        execute_single_command (plain_node "echo".toList CMD_SIMPLE) =
          (note (event.single (plain_node "echo".toList CMD_SIMPLE)) >>= fun _ =>
            builtin_cd (plain_node "echo".toList CMD_SIMPLE).args)) ∧
      ("echo".toList = "pwd".toList →
        execute_single_command (plain_node "echo".toList CMD_SIMPLE) =
          (note (event.single (plain_node "echo".toList CMD_SIMPLE)) >>= fun _ =>
            builtin_pwd (plain_node "echo".toList CMD_SIMPLE).args)) ∧
      ("echo".toList = "echo".toList →
        execute_single_command (plain_node "echo".toList CMD_SIMPLE) =
          (note (event.single (plain_node "echo".toList CMD_SIMPLE)) >>= fun _ =>
            builtin_echo (plain_node "echo".toList CMD_SIMPLE).args)) ∧
      ("echo".toList = "env".toList →
        execute_single_command (plain_node "echo".toList CMD_SIMPLE) =
          (note (event.single (plain_node "echo".toList CMD_SIMPLE)) >>= fun _ =>
            builtin_env (plain_node "echo".toList CMD_SIMPLE).args)) ∧
      ("echo".toList = "exit".toList →
        execute_single_command (plain_node "echo".toList CMD_SIMPLE) =
          (note (event.single (plain_node "echo".toList CMD_SIMPLE)) >>= fun _ =>
            builtin_exit (plain_node "echo".toList CMD_SIMPLE).args)) ∧
      ("echo".toList ∉ builtin_names →
        execute_single_command (plain_node "echo".toList CMD_SIMPLE) =
          (note (event.single (plain_node "echo".toList CMD_SIMPLE)) >>= fun _ =>
            execute_external_command (plain_node "echo".toList CMD_SIMPLE))) :=
  builtin_dispatch (plain_node "echo".toList CMD_SIMPLE) "echo".toList rfl (by decide)

/-- C16 as stated fails: `execute_node` on the node `cd /tmp` joined by `|` to a
following command `wc` runs `cd` in the calling process: the record holds the
calls `chdir` and `getcwd` only, no `pipe` and no `fork`, and the Shell Context
of the caller has the new directory. -/
theorem piped_builtin_runs_in_caller :
    ExecuteNode.execute_node 1 [cd_tmp_piped, plain_node "wc".toList CMD_SIMPLE]
        (sample_machine [sample_reply 0 0, text_reply 1 "/tmp".toList]) =
      Res.ok 0 { ctx := { environ := [], last_exit_status := 0, current_dir := "/tmp".toList },
                 environ := some [], tape := [],
                 log := [event.sys (syscall.chdir "/tmp".toList),
                   event.sys (syscall.getcwd MAX_PATH)] } := by
  decide

/-- C16 as amended: for every node whose command name is a builtin,
`execute_node` runs the builtin in the calling process through
`execute_builtin_command`, whatever the join-operator and the successor of the
node; the builtin runs in a forked child only when `execute_piped_commands` of
`execute_node.c` is what is called: its first child, after redirecting its
standard output to the pipe, calls `execute_node`, which runs the builtin
there. -/
theorem builtin_node_runs_where_called (fuel : Nat) (node nxt : cmd_node_t)
    (next after : List cmd_node_t) (name : List Char) (m : Machine)
    (r_pipe r_fork r_dup2 r_close0 r_close1 : reply) (rest : List reply)
    (hcmd : node.command = some name) (hb : is_builtin_command name ≠ 0)
    (htape : m.tape = r_pipe :: r_fork :: r_dup2 :: r_close0 :: r_close1 :: rest)
    (hpipe : r_pipe.ret ≠ -1) (hchild : r_fork.ret = 0) :
    ExecuteNode.execute_node (fuel + 1) (node :: next) = execute_builtin_command node name ∧
      ExecuteNode.execute_piped_commands (fuel + 1) (node :: nxt :: after) (nxt :: after) m =
        execute_builtin_command node name (in_first_child m node nxt rest) := by
  have h1 : ∀ l, ExecuteNode.execute_node (fuel + 1) (node :: l) =
      execute_builtin_command node name := by
    intro l
    rw [ExecuteNode.execute_node]
    simp only [hcmd, hb, ne_eq, not_false_eq_true, if_true]
  refine ⟨h1 next, ?_⟩
  obtain ⟨ctx, environ, tape, log⟩ := m
  simp only at htape
  subst htape
  simp [ExecuteNode.execute_piped_commands, ExecuteNode.execute_piped_commands_body,
    in_first_child, bind, Proc.bind, sys, note, hpipe, hchild, h1]

/-- C16 as amended, on the node `cd /tmp` joined by `|` to `wc`. -/
theorem builtin_node_runs_where_called_witness :
    ExecuteNode.execute_node (0 + 1) [cd_tmp_piped, plain_node "wc".toList CMD_SIMPLE] =
        execute_builtin_command cd_tmp_piped "cd".toList ∧
      ExecuteNode.execute_piped_commands (0 + 1)
          [cd_tmp_piped, plain_node "wc".toList CMD_SIMPLE] [plain_node "wc".toList CMD_SIMPLE]
          (sample_machine [sample_reply 0 0, sample_reply 0 0, sample_reply 0 0, sample_reply 0 0,
            sample_reply 0 0]) =
        execute_builtin_command cd_tmp_piped "cd".toList
          (in_first_child (sample_machine [sample_reply 0 0, sample_reply 0 0, sample_reply 0 0,
            sample_reply 0 0, sample_reply 0 0]) cd_tmp_piped
            (plain_node "wc".toList CMD_SIMPLE) []) :=
  builtin_node_runs_where_called 0 cd_tmp_piped (plain_node "wc".toList CMD_SIMPLE)
    [plain_node "wc".toList CMD_SIMPLE] [] "cd".toList
    (sample_machine [sample_reply 0 0, sample_reply 0 0, sample_reply 0 0, sample_reply 0 0,
      sample_reply 0 0])
    (sample_reply 0 0) (sample_reply 0 0) (sample_reply 0 0) (sample_reply 0 0) (sample_reply 0 0)
    [] rfl (by decide) rfl (by decide) rfl

/-! ## Builtin bodies -/

theorem sys_spec (call : syscall) (m : Machine) :
    ∃ r m1, sys call m = Res.ok r m1 ∧ m1.ctx = m.ctx ∧ m1.environ = m.environ ∧
      m1.log = m.log ++ [event.sys call] := by
  obtain ⟨ctx, environ, tape, log⟩ := m
  cases tape with
  | nil => exact ⟨_, _, rfl, rfl, rfl, rfl⟩
  | cons r tape => exact ⟨_, _, rfl, rfl, rfl, rfl⟩

theorem stdout_text_append (l1 l2 : List event) :
    stdout_text (l1 ++ l2) = stdout_text l1 ++ stdout_text l2 := by
  induction l1 with
  | nil => rfl
  | cons e l ih =>
    cases e with
    | sys call =>
      cases call with
      | write fd text => cases fd <;> simp [stdout_text, ih]
      | _ => simp [stdout_text, ih]
    | single cmd => simp [stdout_text, ih]
    | piped cmd1 cmd2 => simp [stdout_text, ih]

theorem write_stdout_spec (text : List Char) (m : Machine) :
    ∃ r m1, sys (syscall.write fd_t.STDOUT_FILENO text) m = Res.ok r m1 ∧ m1.ctx = m.ctx ∧
      stdout_text m1.log = stdout_text m.log ++ text := by
  obtain ⟨r, m1, h, hctx, _, hlog⟩ := sys_spec (syscall.write fd_t.STDOUT_FILENO text) m
  refine ⟨r, m1, h, hctx, ?_⟩
  rw [hlog, stdout_text_append]
  simp [stdout_text]

theorem echo_loop_rest (args : List (List Char)) :
    ∀ m, ∃ m1, echo_loop false args m = Res.ok () m1 ∧ m1.ctx = m.ctx ∧
      stdout_text m1.log =
        stdout_text m.log ++ (args.map (fun a => ' ' :: cstr a)).flatten := by
  induction args with
  | nil => intro m; exact ⟨m, rfl, rfl, by simp⟩
  | cons a rest ih =>
    intro m
    obtain ⟨r1, m1, h1, c1, o1⟩ := write_stdout_spec [' '] m
    obtain ⟨r2, m2, h2, c2, o2⟩ := write_stdout_spec (cstr a) m1
    obtain ⟨m3, h3, c3, o3⟩ := ih m2
    refine ⟨m3, ?_, by rw [c3, c2, c1], ?_⟩
    · rw [echo_loop]
      simp only [echo_separator, if_true, bind, Proc.bind, h1, pure, h2, h3]
    · rw [o3, o2, o1]
      simp

theorem echo_loop_first (args : List (List Char)) (hnul : ∀ a ∈ args, '\x00' ∉ a) :
    ∀ m, ∃ m1, echo_loop true args m = Res.ok () m1 ∧ m1.ctx = m.ctx ∧
      stdout_text m1.log = stdout_text m.log ++ List.intercalate [' '] args := by
  have hmap : ∀ l : List (List Char), (∀ a ∈ l, '\x00' ∉ a) →
      (l.map (fun a => ' ' :: cstr a)).flatten = (l.map (fun a => ' ' :: a)).flatten := by
    intro l hl
    congr 1
    apply List.map_congr_left
    intro a ha
    rw [cstr_of_no_nul a (hl a ha)]
  have hinter : ∀ (a : List Char) (l : List (List Char)),
      List.intercalate [' '] (a :: l) = a ++ (l.map (fun b => ' ' :: b)).flatten := by
    intro a l
    induction l generalizing a with
    | nil => simp [List.intercalate]
    | cons b l ih =>
      have := ih b
      simp only [List.intercalate, List.intersperse, List.flatten_cons, List.map_cons] at this ⊢
      rw [this]
      simp
  intro m
  cases args with
  | nil => exact ⟨m, rfl, rfl, by simp [List.intercalate]⟩
  | cons a rest =>
    obtain ⟨r2, m2, h2, c2, o2⟩ := write_stdout_spec (cstr a) m
    obtain ⟨m3, h3, c3, o3⟩ := echo_loop_rest rest m2
    refine ⟨m3, ?_, by rw [c3, c2], ?_⟩
    · rw [echo_loop]
      simp only [echo_separator, Bool.true_eq_false, if_false, bind, Proc.bind, pure, h2, h3]
    · rw [o3, o2, hinter, hmap rest (fun b hb => hnul b (by simp [hb])),
        cstr_of_no_nul a (hnul a (by simp))]
      simp

/-- C17: for every list of arguments (strings without NUL), `builtin_echo`
returns `0`, leaves the Shell Context as it was and writes to standard output
the arguments joined by single spaces and a newline, or, when the first
argument is exactly `-n`, the remaining arguments joined by single spaces and
no newline; `echo -n foo` writes `foo` and `echo foo bar` writes `foo bar` and a
newline. -/
theorem echo_writes_arguments (args : List (List Char)) (m : Machine)
    (hnul : ∀ a ∈ args, '\x00' ∉ a) :
    (∃ m1, builtin_echo args m = Res.ok 0 m1 ∧ m1.ctx = m.ctx ∧
        stdout_text m1.log = stdout_text m.log ++ echo_text args) ∧
      echo_text ["-n".toList, "foo".toList] = "foo".toList ∧
      echo_text ["foo".toList, "bar".toList] = "foo bar\n".toList := by
  refine ⟨?_, by decide, by decide⟩
  cases args with
  | nil =>
    obtain ⟨r, m1, h1, c1, o1⟩ := write_stdout_spec ['\n'] m
    refine ⟨m1, ?_, c1, o1⟩
    unfold builtin_echo
    simp only [bind, Proc.bind, echo_loop, pure, if_true, Bool.false_eq_true, if_false,
      List.drop_nil, h1]
  | cons a rest =>
    have ha : streq a "-n".toList = true ↔ a = ['-', 'n'] :=
      streq_iff a _ (hnul a (by simp)) (by decide)
    by_cases hf : a = ['-', 'n']
    · have hflag : streq a "-n".toList = true := ha.mpr hf
      obtain ⟨m1, h1, c1, o1⟩ := echo_loop_first rest (fun b hb => hnul b (by simp [hb])) m
      refine ⟨m1, ?_, c1, ?_⟩
      · unfold builtin_echo
        simp only [hflag, if_true, List.drop_succ_cons, List.drop_zero, bind, Proc.bind, h1,
          Bool.true_eq_false, if_false, pure]
      · rw [o1]
        simp [echo_text, hf]
    · have hflag : streq a "-n".toList = false := by
        cases hs : streq a "-n".toList with
        | false => rfl
        | true => exact absurd (ha.mp hs) hf
      obtain ⟨m1, h1, c1, o1⟩ := echo_loop_first (a :: rest) hnul m
      obtain ⟨r, m2, h2, c2, o2⟩ := write_stdout_spec ['\n'] m1
      refine ⟨m2, ?_, by rw [c2, c1], ?_⟩
      · unfold builtin_echo
        simp only [hflag, Bool.false_eq_true, if_false, bind, Proc.bind, h1, if_true, h2, pure]
      · rw [o2, o1]
        simp [echo_text, hf]

/-- C17, on the arguments `-n`, `a`, `b`. -/
theorem echo_writes_arguments_witness :
    (∃ m1, builtin_echo ["-n".toList, ['a'], ['b']] (sample_machine []) = Res.ok 0 m1 ∧
        m1.ctx = (sample_machine []).ctx ∧
        stdout_text m1.log =
          stdout_text (sample_machine []).log ++ echo_text ["-n".toList, ['a'], ['b']]) ∧
      echo_text ["-n".toList, "foo".toList] = "foo".toList ∧
      echo_text ["foo".toList, "bar".toList] = "foo bar\n".toList :=
  echo_writes_arguments ["-n".toList, ['a'], ['b']] (sample_machine []) (by decide)

/-- C19: when `chdir` fails, `builtin_cd` returns `1` after the calls `chdir` and
`perror` only (after `getenv`, `chdir` and `perror` when it has no argument and
`HOME` is set), and the Shell Context, `ctx.current_dir` included, is as it
was before the call. -/
theorem cd_failure_keeps_directory (m : Machine) (dir : List Char) (args : List (List Char))
    (r_home r_chdir : reply) (rest : List reply) (hfail : r_chdir.ret ≠ 0) :
    (m.tape = r_chdir :: rest →
        builtin_cd (dir :: args) m =
          Res.ok 1 (after_calls m (rest.drop 1)
            [syscall.chdir dir, syscall.perror "cd".toList])) ∧
      (m.tape = r_home :: r_chdir :: rest → r_home.ret ≠ 0 →
        builtin_cd [] m =
          Res.ok 1 (after_calls m (rest.drop 1)
            [syscall.getenv "HOME".toList, syscall.chdir r_home.text,
              syscall.perror "cd".toList])) ∧
      (∀ calls, (after_calls m (rest.drop 1) calls).ctx = m.ctx) := by
  obtain ⟨ctx, environ, tape, log⟩ := m
  refine ⟨?_, ?_, fun _ => rfl⟩
  · intro htape
    simp only at htape
    subst htape
    cases rest <;>
      simp [builtin_cd, builtin_cd_to, after_calls, bind, Proc.bind, sys, hfail, pure]
  · intro htape hhome
    simp only at htape
    subst htape
    cases rest <;>
      simp [builtin_cd, builtin_cd_to, after_calls, bind, Proc.bind, sys, hfail, hhome, pure]

/-- C19, on `cd /nonexistent` with `chdir` returning `-1`. -/
theorem cd_failure_keeps_directory_witness :
    builtin_cd ["/nonexistent".toList] (sample_machine [sample_reply (-1) 0]) =
        Res.ok 1 (after_calls (sample_machine [sample_reply (-1) 0]) []
          [syscall.chdir "/nonexistent".toList, syscall.perror "cd".toList]) ∧
      (after_calls (sample_machine [sample_reply (-1) 0]) []
          [syscall.chdir "/nonexistent".toList, syscall.perror "cd".toList]).ctx =
        (sample_machine [sample_reply (-1) 0]).ctx :=
  have h := cd_failure_keeps_directory (sample_machine [sample_reply (-1) 0])
    "/nonexistent".toList [] (sample_reply 0 0) (sample_reply (-1) 0) [] (by decide)
  ⟨h.1 rfl, h.2.2 _⟩

/-! ## Exit status of an external command -/

/-- C20 as stated fails: for the foreground external command `sleep 100` whose
child is killed by signal 9 (wait status `9`), `execute_external_command`
returns `0`, not `128 + 9`. -/
theorem signal_status_is_zero :
    execute_external_command sleep_node (sample_machine [sample_reply 10 0, sample_reply 10 9]) =
        Res.ok 0 (after_calls (sample_machine []) [] [syscall.fork, syscall.waitpid 10]) ∧
      (0 : Int) ≠ 128 + 9 := by
  decide

/-- C20 as amended: for a foreground external command whose child is created,
`execute_external_command` returns `WEXITSTATUS` of the wait status: the exit
code `n` of a child that exits normally (status `256 * n`), and `0` for a child
ended by a signal `s` (status `s`, or `s + 128` with a core dump). -/
theorem external_status_is_wexitstatus (cmd : cmd_node_t) (m : Machine)
    (r_fork r_wait : reply) (rest : List reply)
    (htape : m.tape = r_fork :: r_wait :: rest) (hpid : 0 < r_fork.ret)
    (hfg : cmd.background = 0) :
    (∀ n : Int, 0 ≤ n ∧ n < 256 → r_wait.out = 256 * n →
        execute_external_command cmd m =
          Res.ok n (after_calls m rest [syscall.fork, syscall.waitpid r_fork.ret])) ∧
      (∀ s : Int, 1 ≤ s ∧ s ≤ 127 → r_wait.out = s ∨ r_wait.out = s + 128 →
        execute_external_command cmd m =
          Res.ok 0 (after_calls m rest [syscall.fork, syscall.waitpid r_fork.ret])) := by
  have h0 : r_fork.ret ≠ 0 := by omega
  have hrun : execute_external_command cmd m =
      Res.ok (WEXITSTATUS r_wait.out)
        (after_calls m rest [syscall.fork, syscall.waitpid r_fork.ret]) := by
    obtain ⟨ctx, environ, tape, log⟩ := m
    simp only at htape
    subst htape
    simp [execute_external_command, after_calls, bind, Proc.bind, sys, pure, h0, hpid, hfg]
  constructor
  · intro n hn hout
    rw [hrun, hout, WEXITSTATUS_of_exit n hn]
  · intro s hs hout
    rw [hrun]
    have : WEXITSTATUS r_wait.out = 0 := by
      unfold WEXITSTATUS
      rcases hout with h | h <;> rw [h] <;> omega
    rw [this]

/-- C20 as amended, on `sleep 100` exiting with code 3 and on `sleep 100` killed
by signal 9. -/
theorem external_status_is_wexitstatus_witness :
    execute_external_command sleep_node
        (sample_machine [sample_reply 10 0, sample_reply 10 768]) =
        Res.ok 3 (after_calls (sample_machine [sample_reply 10 0, sample_reply 10 768]) []
          [syscall.fork, syscall.waitpid 10]) ∧
      execute_external_command sleep_node
        (sample_machine [sample_reply 10 0, sample_reply 10 9]) =
        Res.ok 0 (after_calls (sample_machine [sample_reply 10 0, sample_reply 10 9]) []
          [syscall.fork, syscall.waitpid 10]) :=
  ⟨(external_status_is_wexitstatus sleep_node
      (sample_machine [sample_reply 10 0, sample_reply 10 768])
      (sample_reply 10 0) (sample_reply 10 768) [] rfl (by decide) rfl).1 3 (by decide) rfl,
    (external_status_is_wexitstatus sleep_node
      (sample_machine [sample_reply 10 0, sample_reply 10 9])
      (sample_reply 10 0) (sample_reply 10 9) [] rfl (by decide) rfl).2 9 (by decide)
      (Or.inl rfl)⟩

/-! ## Operator tokens and the ends of words -/

/-- C22: after leading blanks, `||` is returned as the one operator token `||`
with both characters consumed, `&&` as the one operator token `&&`, a `|` not
followed by `|` as the operator token `|` with one character consumed, and `;`
as the operator token `;`; each is flagged as an operator. -/
theorem operator_tokens (bl rest : List Char) (hbl : blanks bl) :
    parse_token (bl ++ '|' :: '|' :: rest) =
        { token := some ['|', '|'], is_operator := true, input := rest } ∧
      parse_token (bl ++ '&' :: '&' :: rest) =
        { token := some ['&', '&'], is_operator := true, input := rest } ∧
      (peek rest ≠ '|' →
        parse_token (bl ++ '|' :: rest) =
          { token := some ['|'], is_operator := true, input := rest }) ∧
      parse_token (bl ++ ';' :: rest) =
        { token := some [';'], is_operator := true, input := rest } := by
  refine ⟨?_, ?_, ?_, ?_⟩
  · unfold parse_token
    rw [skip_blanks_append bl _ hbl]
    simp [skip_blanks, peek]
  · unfold parse_token
    rw [skip_blanks_append bl _ hbl]
    simp [skip_blanks, peek]
  · intro hp
    unfold parse_token
    rw [skip_blanks_append bl _ hbl]
    simp [skip_blanks, hp]
  · unfold parse_token
    rw [skip_blanks_append bl _ hbl]
    simp [skip_blanks]

/-- C22, on the texts ` || b`, ` && b`, ` | b` and ` ; b`. -/
theorem operator_tokens_witness :
    parse_token ([' '] ++ '|' :: '|' :: " b".toList) =
        { token := some ['|', '|'], is_operator := true, input := " b".toList } ∧
      parse_token ([' '] ++ '&' :: '&' :: " b".toList) =
        { token := some ['&', '&'], is_operator := true, input := " b".toList } ∧
      parse_token ([' '] ++ '|' :: " b".toList) =
        { token := some ['|'], is_operator := true, input := " b".toList } ∧
      parse_token ([' '] ++ ';' :: " b".toList) =
        { token := some [';'], is_operator := true, input := " b".toList } :=
  have h := operator_tokens [' '] " b".toList (by decide)
  ⟨h.1, h.2.1, h.2.2.1 (by decide), h.2.2.2⟩

/-- C23 as stated fails: on `a&b` `parse_token` returns the word `a` and leaves
the cursor on `&b`, although a lone `&` is no operator (on `&b` it returns no
token at all); on `a`, newline, `b` it returns the word `a` and leaves the
cursor on the newline. -/
theorem word_ends_at_ampersand_and_newline :
    parse_token "a&b".toList =
        { token := some ['a'], is_operator := false, input := "&b".toList } ∧
      parse_token "&b".toList = { token := none, is_operator := false, input := "&b".toList } ∧
      parse_token ['a', '\n', 'b'] =
        { token := some ['a'], is_operator := false, input := ['\n', 'b'] } := by
  decide

/-- C23 as amended: when the text after leading blanks starts with a character
that is neither a quote nor one of NUL, blank, tab, newline, `|`, `&`, `;`,
`parse_token` returns as the word the longest prefix free of those seven
characters, not flagged as an operator, and leaves the cursor on the first of
them or at the end of the input. -/
theorem word_ends_at_stop_character (bl cs : List Char) (c : Char) (hbl : blanks bl)
    (hc : word_end c = false) (hq : c ≠ '\x22' ∧ c ≠ '\x27') :
    parse_token (bl ++ c :: cs) =
      { token := some ((c :: cs).takeWhile (fun x => !word_end x)), is_operator := false,
        input := (c :: cs).dropWhile (fun x => !word_end x) } := by
  have h : c ≠ '\x00' ∧ c ≠ ' ' ∧ c ≠ '\t' ∧ c ≠ '\n' ∧ c ≠ '|' ∧ c ≠ '&' ∧ c ≠ ';' := by
    simp only [word_end, decide_eq_false_iff_not, not_or] at hc
    exact hc
  obtain ⟨h0, h1, h2, h3, h4, h5, h6⟩ := h
  unfold parse_token
  rw [skip_blanks_append bl _ hbl, skip_blanks_cons c cs h1 h2]
  simp only [h0, h4, h5, h6, hq.1, hq.2, if_false, false_and, or_self]
  unfold regular_token
  rw [scan_word_eq]
  simp [hc]

/-- C23 as amended, on the text `  ab"c&d`. -/
theorem word_ends_at_stop_character_witness :
    parse_token ("  ".toList ++ 'a' :: ['b', '\x22', 'c', '&', 'd']) =
      { token := some ['a', 'b', '\x22', 'c'], is_operator := false, input := ['&', 'd'] } :=
  word_ends_at_stop_character "  ".toList ['b', '\x22', 'c', '&', 'd'] 'a' (by decide)
    (by decide) (by decide)

/-- C24: `parse_command_line` ends on every line.  A call of `parse_token` that
returns a token has moved the cursor forward by at least one character, so a
call of `parse_single_command` that returns a node has, the argument loop never
moves the cursor back, and every pass of the loop of `parse_command_line` either
leaves the loop or hands a strictly shorter text to the next pass; with one
pass per character of the line, plus one, the loop is left. -/
theorem parser_terminates (line : List Char) :
    (∀ s, (parse_token s).token ≠ none → (parse_token s).input.length < s.length) ∧
      (∀ room s, (collect_args room s).2.length ≤ s.length) ∧
      (∀ s, (parse_single_command s).1 ≠ none → (parse_single_command s).2.length < s.length) ∧
      (∀ current chain current1 chain1,
        parse_iter current chain = Sum.inl (current1, chain1) →
          current1.length < current.length) ∧
      (∃ result, parse_command_line line = some result) ∧
      (∀ result j, parse_loop (line.length + 1) line create_command_chain = some result →
        parse_loop (line.length + 1 + j) line create_command_chain = some result) :=
  ⟨fun s => (parse_token_length s).2, fun room s => collect_args_length room s,
    parse_single_command_length,
    fun current chain current1 chain1 h => (parse_iter_next current chain current1 chain1 h).1,
    parse_command_line_total line,
    fun result j h => parse_loop_more_fuel _ line create_command_chain result h j⟩

/-- C24, on the line `ls -l | wc`. -/
theorem parser_terminates_witness :
    (parse_token "ls -l | wc".toList).input.length < "ls -l | wc".toList.length ∧
      (parse_single_command "ls -l | wc".toList).2.length < "ls -l | wc".toList.length ∧
      ∃ result, parse_command_line "ls -l | wc".toList = some result :=
  have h := parser_terminates "ls -l | wc".toList
  ⟨h.1 _ (by decide), h.2.2.1 _ (by decide), h.2.2.2.2.1⟩

/-! ## Fields the parser never writes -/

theorem parse_single_command_fields (s : List Char) (node : cmd_node_t) (current : List Char)
    (h : parse_single_command s = (some node, current)) : parsed_fields node := by
  unfold parse_single_command at h
  generalize parse_token s = t at h
  obtain ⟨tok, isop, inp⟩ := t
  cases tok with
  | none => simp at h
  | some token =>
    cases isop with
    | true => simp at h
    | false =>
      simp only [Bool.false_eq_true, if_false] at h
      split at h
      · simp only [Prod.mk.injEq, Option.some.injEq] at h
        rw [← h.1]
        exact ⟨by simp, rfl, rfl, rfl, rfl⟩
      · simp only [Prod.mk.injEq, Option.some.injEq] at h
        rw [← h.1]
        exact ⟨by simp, rfl, rfl, rfl, rfl⟩

theorem join_operator_fields (node : cmd_node_t) (current : List Char)
    (h : parsed_fields node) : parsed_fields (join_operator node current).1 := by
  unfold join_operator
  split_ifs <;> exact h

theorem parse_iter_fields (current : List Char) (chain : command_chain_t)
    (current1 : List Char) (chain1 : command_chain_t)
    (h : parse_iter current chain = Sum.inl (current1, chain1))
    (hchain : ∀ node ∈ chain.head, parsed_fields node) :
    ∀ node ∈ chain1.head, parsed_fields node := by
  unfold parse_iter at h
  split at h
  · simp at h
  · simp only [] at h
    split at h
    · simp at h
    · cases hp : parse_single_command (skip_blanks current) with
      | mk node cur =>
        rw [hp] at h
        cases node with
        | none => simp at h
        | some node =>
          simp only [Sum.inl.injEq, Prod.mk.injEq] at h
          have hf := join_operator_fields node (skip_blanks cur)
            (parse_single_command_fields _ _ _ hp)
          intro n hn
          rw [← h.2] at hn
          simp only [add_command_to_chain, List.mem_append, List.mem_singleton] at hn
          rcases hn with hn | hn
          · exact hchain n hn
          · rw [hn]; exact hf

theorem parse_iter_done (current : List Char) (chain result : command_chain_t)
    (h : parse_iter current chain = Sum.inr result) : result = chain := by
  unfold parse_iter at h
  split at h
  · simpa using h.symm
  · simp only [] at h
    split at h
    · simpa using h.symm
    · split at h
      · simpa using h.symm
      · simp at h

theorem parse_loop_fields (fuel : Nat) :
    ∀ (current : List Char) (chain result : command_chain_t),
      parse_loop fuel current chain = some result →
      (∀ node ∈ chain.head, parsed_fields node) →
      ∀ node ∈ result.head, parsed_fields node := by
  induction fuel with
  | zero => intro current chain result h; simp [parse_loop] at h
  | succ fuel ih =>
    intro current chain result h hchain
    rw [parse_loop_succ] at h
    cases hi : parse_iter current chain with
    | inl st =>
      obtain ⟨cur1, chain1⟩ := st
      rw [hi] at h
      exact ih cur1 chain1 result h (parse_iter_fields _ _ _ _ hi hchain)
    | inr c =>
      rw [hi] at h
      simp only [Option.some.injEq] at h
      rw [← h, parse_iter_done _ _ _ hi]
      exact hchain

theorem Proc.pure_bind {α β : Type} (a : α) (f : α → Proc β) : (pure a >>= f) = f a := rfl

theorem execute_external_command_of_fields (node : cmd_node_t) (h : parsed_fields node) :
    redirect_input node = pure () ∧ redirect_output node = pure () ∧
      execute_external_command node = execute_foreground_command node := by
  obtain ⟨_, hin, hout, _, hbg⟩ := h
  have h1 : redirect_input node = pure () := by
    unfold redirect_input
    rw [hin]
  have h2 : redirect_output node = pure () := by
    unfold redirect_output
    rw [hout]
  refine ⟨h1, h2, ?_⟩
  unfold execute_external_command execute_foreground_command
  rw [h1, h2]
  simp only [Proc.pure_bind, hbg, if_true]

/-- C27: on every line `parse_command_line` returns a chain, and every command
in it has a program name, no input-redirect path, no output-redirect path,
append flag `0` and background flag `0`; for such a command the two redirection
steps of the child do nothing and `execute_external_command` is the foreground
run without redirection. -/
theorem parsed_commands_have_default_fields (line : List Char) :
    ∃ chain, parse_command_line line = some chain ∧
      ∀ node ∈ chain.head,
        node.command ≠ none ∧ node.input_file = none ∧ node.output_file = none ∧
          node.append_output = 0 ∧ node.background = 0 ∧
          redirect_input node = pure () ∧ redirect_output node = pure () ∧
          execute_external_command node = execute_foreground_command node := by
  obtain ⟨chain, hchain⟩ := parse_command_line_total line
  refine ⟨chain, hchain, ?_⟩
  intro node hnode
  have hf := parse_loop_fields _ line create_command_chain chain hchain
    (by intro n hn; simp [create_command_chain] at hn) node hnode
  obtain ⟨h1, h2, h3⟩ := execute_external_command_of_fields node hf
  exact ⟨hf.1, hf.2.1, hf.2.2.1, hf.2.2.2.1, hf.2.2.2.2, h1, h2, h3⟩

/-! ## The commands started by a run -/

theorem started_append (l1 l2 : List event) :
    started (l1 ++ l2) = started l1 ++ started l2 := by
  induction l1 with
  | nil => rfl
  | cons e l ih => cases e <;> simp [started, ih]

theorem with_status_log (m : Machine) (status : Int) : (m.with_status status).log = m.log := by
  obtain ⟨⟨e, s, d⟩, environ, tape, log⟩ := m
  rfl

theorem machine_of_finished {α : Type} (r : Res α) (h : r ≠ Res.unfinished) :
    ∃ m1, r.machine = some m1 := by
  cases r with
  | ok a m => exact ⟨m, rfl⟩
  | exited code m => exact ⟨m, rfl⟩
  | replaced m => exact ⟨m, rfl⟩
  | unfinished => exact absurd rfl h

theorem starts_pure {α : Type} (a : α) : (pure a : Proc α).starts [] := by
  intro m m1 h
  simp only [Proc.pure_apply, Res.machine, Option.some.injEq] at h
  rw [← h]
  simp

theorem starts_bind {α β : Type} (x : Proc α) (f : α → Proc β) (cmds : List cmd_node_t)
    (hx : x.starts cmds) (hf : ∀ a, (f a).starts []) : (x >>= f).starts cmds := by
  intro m m1 h
  rw [Proc.bind_apply] at h
  cases hxm : x m with
  | ok a m2 =>
    rw [hxm] at h
    simp only [] at h
    have h1 := hx m m2 (by rw [hxm]; rfl)
    have h2 := hf a m2 m1 h
    rw [h2, h1]
    simp
  | exited code m2 =>
    rw [hxm] at h
    simp only [Res.machine, Option.some.injEq] at h
    rw [← h]
    exact hx m m2 (by rw [hxm]; rfl)
  | replaced m2 =>
    rw [hxm] at h
    simp only [Res.machine, Option.some.injEq] at h
    rw [← h]
    exact hx m m2 (by rw [hxm]; rfl)
  | unfinished =>
    rw [hxm] at h
    simp [Res.machine] at h

theorem starts_sys (call : syscall) : (sys call).starts [] := by
  intro m m1 h
  obtain ⟨r, m2, hs, _, _, hlog⟩ := sys_spec call m
  rw [hs] at h
  simp only [Res.machine, Option.some.injEq] at h
  rw [← h, hlog, started_append]
  simp [started]

theorem starts_note_single (cmd : cmd_node_t) : (note (event.single cmd)).starts [cmd] := by
  intro m m1 h
  obtain ⟨ctx, environ, tape, log⟩ := m
  simp only [note, Res.machine, Option.some.injEq] at h
  rw [← h]
  simp [started_append, started]

theorem starts_note_piped (cmd1 cmd2 : cmd_node_t) :
    (note (event.piped cmd1 cmd2)).starts [cmd1, cmd2] := by
  intro m m1 h
  obtain ⟨ctx, environ, tape, log⟩ := m
  simp only [note, Res.machine, Option.some.injEq] at h
  rw [← h]
  simp [started_append, started]

theorem starts_sys_exit {α : Type} (code : Int) : (sys_exit code : Proc α).starts [] := by
  intro m m1 h
  simp only [sys_exit, Res.machine, Option.some.injEq] at h
  rw [← h]
  simp

theorem starts_sys_execvp (file : Option (List Char)) (args : List (List Char)) :
    (sys_execvp file args).starts [] := by
  intro m m1 h
  unfold sys_execvp at h
  obtain ⟨r, m2, hs, _, _, hlog⟩ := sys_spec (syscall.execvp file args) m
  rw [hs] at h
  simp only [] at h
  have hm : m1 = m2 := by
    split at h <;> simp only [Res.machine, Option.some.injEq] at h <;> exact h.symm
  rw [hm, hlog, started_append]
  simp [started]

theorem starts_builtin_cd_to (dir : List Char) : (builtin_cd_to dir).starts [] := by
  unfold builtin_cd_to
  refine starts_bind _ _ _ (starts_sys _) (fun r => ?_)
  split
  · exact starts_bind _ _ _ (starts_sys _) (fun _ => starts_pure _)
  · refine starts_bind _ _ _ (starts_sys _) (fun g => ?_)
    split
    · exact starts_bind _ _ _ (starts_sys _) (fun _ => starts_pure _)
    · intro m m1 h
      simp only [Res.machine, Option.some.injEq] at h
      rw [← h]
      simp

theorem starts_builtin_cd (args : List (List Char)) : (builtin_cd args).starts [] := by
  unfold builtin_cd
  split
  · refine starts_bind _ _ _ (starts_sys _) (fun h => ?_)
    split
    · exact starts_bind _ _ _ (starts_sys _) (fun _ => starts_pure _)
    · exact starts_builtin_cd_to _
  · exact starts_builtin_cd_to _

theorem starts_builtin_pwd (args : List (List Char)) : (builtin_pwd args).starts [] := by
  unfold builtin_pwd
  refine starts_bind _ _ _ (starts_sys _) (fun g => ?_)
  split <;> exact starts_bind _ _ _ (starts_sys _) (fun _ => starts_pure _)

theorem starts_echo_loop (args : List (List Char)) :
    ∀ first, (echo_loop first args).starts [] := by
  induction args with
  | nil => intro first; exact starts_pure _
  | cons a rest ih =>
    intro first
    unfold echo_loop
    refine starts_bind _ _ _ ?_ (fun _ => ?_)
    · unfold echo_separator
      split
      · exact starts_bind _ _ _ (starts_sys _) (fun _ => starts_pure _)
      · exact starts_pure _
    · exact starts_bind _ _ _ (starts_sys _) (fun _ => ih false)

theorem starts_builtin_echo (args : List (List Char)) : (builtin_echo args).starts [] := by
  unfold builtin_echo
  refine starts_bind _ _ _ (starts_echo_loop _ _) (fun _ => ?_)
  split
  · exact starts_bind _ _ _ (starts_sys _) (fun _ => starts_pure _)
  · exact starts_pure _

theorem starts_env_loop (env : List (List Char)) : (env_loop env).starts [] := by
  induction env with
  | nil => exact starts_pure _
  | cons e rest ih =>
    unfold env_loop
    exact starts_bind _ _ _ (starts_sys _) (fun _ => ih)

theorem starts_builtin_env (args : List (List Char)) : (builtin_env args).starts [] := by
  intro m m1 h
  unfold builtin_env at h
  split at h
  · simp only [Res.machine, Option.some.injEq] at h
    rw [← h]
    simp
  · exact starts_bind _ _ _ (starts_env_loop _) (fun _ => starts_pure _) m m1 h

theorem starts_builtin_exit (args : List (List Char)) : (builtin_exit args).starts [] := by
  intro m m1 h
  unfold builtin_exit at h
  exact starts_bind _ _ _ (starts_sys _) (fun _ => starts_sys_exit _) m m1 h

theorem starts_execute_builtin_command (cmd : cmd_node_t) (command : List Char) :
    (execute_builtin_command cmd command).starts [] := by
  unfold execute_builtin_command
  split
  · exact starts_builtin_cd _
  · split
    · exact starts_builtin_pwd _
    · split
      · exact starts_builtin_echo _
      · split
        · exact starts_builtin_env _
        · split
          · exact starts_builtin_exit _
          · exact starts_pure _

theorem starts_exec_or_die {α : Type} (cmd : cmd_node_t) :
    (exec_or_die cmd : Proc α).starts [] := by
  unfold exec_or_die
  exact starts_bind _ _ _ (starts_sys_execvp _ _)
    (fun _ => starts_bind _ _ _ (starts_sys _) (fun _ => starts_sys_exit _))

theorem starts_redirect_input (cmd : cmd_node_t) : (redirect_input cmd).starts [] := by
  unfold redirect_input
  split
  · exact starts_pure _
  · refine starts_bind _ _ _ (starts_sys _) (fun f => ?_)
    split
    · exact starts_bind _ _ _ (starts_sys _) (fun _ => starts_sys_exit _)
    · exact starts_bind _ _ _ (starts_sys _)
        (fun _ => starts_bind _ _ _ (starts_sys _) (fun _ => starts_pure _))

theorem starts_redirect_output (cmd : cmd_node_t) : (redirect_output cmd).starts [] := by
  unfold redirect_output
  split
  · exact starts_pure _
  · refine starts_bind _ _ _ (starts_sys _) (fun f => ?_)
    split
    · exact starts_bind _ _ _ (starts_sys _) (fun _ => starts_sys_exit _)
    · exact starts_bind _ _ _ (starts_sys _)
        (fun _ => starts_bind _ _ _ (starts_sys _) (fun _ => starts_pure _))

theorem starts_execute_external_command (cmd : cmd_node_t) :
    (execute_external_command cmd).starts [] := by
  unfold execute_external_command
  refine starts_bind _ _ _ (starts_sys _) (fun pid => ?_)
  split
  · exact starts_bind _ _ _ (starts_redirect_input _)
      (fun _ => starts_bind _ _ _ (starts_redirect_output _) (fun _ => starts_exec_or_die _))
  · split
    · split
      · exact starts_bind _ _ _ (starts_sys _) (fun _ => starts_pure _)
      · exact starts_bind _ _ _ (starts_sys _) (fun _ => starts_pure _)
    · exact starts_bind _ _ _ (starts_sys _) (fun _ => starts_pure _)

theorem starts_execute_single_command (cmd : cmd_node_t) :
    (execute_single_command cmd).starts [cmd] := by
  unfold execute_single_command
  refine starts_bind _ _ _ (starts_note_single _) (fun _ => ?_)
  split
  · exact starts_pure _
  · split
    · exact starts_execute_builtin_command _ _
    · exact starts_execute_external_command _

theorem starts_execute_piped_commands (cmd1 cmd2 : cmd_node_t) :
    (execute_piped_commands cmd1 cmd2).starts [cmd1, cmd2] := by
  unfold execute_piped_commands
  refine starts_bind _ _ _ (starts_note_piped _ _) (fun _ => ?_)
  refine starts_bind _ _ _ (starts_sys _) (fun p => ?_)
  split
  · exact starts_bind _ _ _ (starts_sys _) (fun _ => starts_pure _)
  · refine starts_bind _ _ _ (starts_sys _) (fun pid1 => ?_)
    split
    · exact starts_bind _ _ _ (starts_sys _) (fun _ => starts_bind _ _ _ (starts_sys _)
        (fun _ => starts_bind _ _ _ (starts_sys _) (fun _ => starts_exec_or_die _)))
    · refine starts_bind _ _ _ (starts_sys _) (fun pid2 => ?_)
      split
      · exact starts_bind _ _ _ (starts_sys _) (fun _ => starts_bind _ _ _ (starts_sys _)
          (fun _ => starts_bind _ _ _ (starts_sys _) (fun _ => starts_exec_or_die _)))
      · exact starts_bind _ _ _ (starts_sys _) (fun _ => starts_bind _ _ _ (starts_sys _)
          (fun _ => starts_bind _ _ _ (starts_sys _) (fun _ => starts_bind _ _ _ (starts_sys _)
            (fun _ => starts_pure _))))

theorem chain_loop_starts (fuel : Nat) :
    ∀ (current : List cmd_node_t) (last_status : Int) (m m1 : Machine),
      (chain_loop fuel current last_status m).machine = some m1 →
      ∃ k, k ≤ current.length ∧ started m1.log = started m.log ++ current.take k := by
  induction fuel with
  | zero =>
    intro current last_status m m1 h
    simp [chain_loop, Res.machine] at h
  | succ fuel ih =>
    intro current last_status m m1 h
    rw [chain_loop_succ] at h
    cases current with
    | nil =>
      simp only [chain_iter, Proc.pure_apply, Res.machine, Option.some.injEq] at h
      exact ⟨0, by simp, by rw [← h]; simp⟩
    | cons cur next =>
      by_cases hp : cur.type = CMD_PIPE ∧ next ≠ []
      · obtain ⟨hp, hne⟩ := hp
        cases next with
        | nil => exact absurd rfl hne
        | cons nxt after =>
          rw [chain_iter_piped cur nxt after last_status m hp] at h
          have hs := starts_execute_piped_commands cur nxt m
          cases hr : execute_piped_commands cur nxt m with
          | ok status m2 =>
            rw [hr] at h hs
            simp only [] at h
            have h2 := hs m2 rfl
            obtain ⟨k, hk, hst⟩ := ih after status _ m1 h
            rw [with_status_log, h2] at hst
            refine ⟨k + 2, by simp only [List.length_cons]; omega, ?_⟩
            rw [hst]
            simp
          | exited code m2 =>
            rw [hr] at h hs
            simp only [Res.machine, Option.some.injEq] at h
            rw [← h, hs m2 rfl]
            exact ⟨2, by simp, by simp⟩
          | replaced m2 =>
            rw [hr] at h hs
            simp only [Res.machine, Option.some.injEq] at h
            rw [← h, hs m2 rfl]
            exact ⟨2, by simp, by simp⟩
          | unfinished =>
            rw [hr] at h
            simp [Res.machine] at h
      · have hsingle : cur.type ≠ CMD_PIPE ∨ next = [] := by
          by_cases h1 : cur.type = CMD_PIPE
          · right
            by_contra h2
            exact hp ⟨h1, h2⟩
          · exact Or.inl h1
        rw [chain_iter_single cur next last_status m hsingle] at h
        have hs := starts_execute_single_command cur m
        cases hr : execute_single_command cur m with
        | ok status m2 =>
          rw [hr] at h hs
          simp only [] at h
          have h2 := hs m2 rfl
          by_cases hb : next ≠ [] ∧ ((cur.type = CMD_AND ∧ status ≠ 0) ∨
              (cur.type = CMD_OR ∧ status = 0))
          · rw [if_pos hb] at h
            simp only [Res.machine, Option.some.injEq] at h
            rw [← h, h2]
            exact ⟨1, by simp, by simp⟩
          · rw [if_neg hb] at h
            simp only [] at h
            obtain ⟨k, hk, hst⟩ := ih next status _ m1 h
            rw [with_status_log, h2] at hst
            refine ⟨k + 1, by simp only [List.length_cons]; omega, ?_⟩
            rw [hst]
            simp
        | exited code m2 =>
          rw [hr] at h hs
          simp only [Res.machine, Option.some.injEq] at h
          rw [← h, hs m2 rfl]
          exact ⟨1, by simp, by simp⟩
        | replaced m2 =>
          rw [hr] at h hs
          simp only [Res.machine, Option.some.injEq] at h
          rw [← h, hs m2 rfl]
          exact ⟨1, by simp, by simp⟩
        | unfinished =>
          rw [hr] at h
          simp [Res.machine] at h

/-- C21: on every chain and machine, the commands `execute_command_chain` starts
(hands to `execute_single_command`, or to `execute_piped_commands` as a stage)
are, in the order in which they are started, exactly the first `k` commands of
the chain for some `k`, however the run ends (return, `exit` or `execvp`). -/
theorem started_commands_are_a_prefix (chain : command_chain_t) (m : Machine) :
    ∃ m1 k, (execute_command_chain chain m).machine = some m1 ∧ k ≤ chain.head.length ∧
      started m1.log = started m.log ++ chain.head.take k := by
  obtain ⟨m1, hm1⟩ := machine_of_finished _ (finishes_execute_command_chain chain m)
  refine ⟨m1, ?_⟩
  unfold execute_command_chain at hm1 ⊢
  by_cases hne : chain.head = []
  · rw [if_pos hne] at hm1 ⊢
    simp only [Proc.pure_apply, Res.machine, Option.some.injEq] at hm1
    exact ⟨0, by simp [Proc.pure_apply, Res.machine, hm1], by simp, by rw [← hm1]; simp⟩
  · rw [if_neg hne] at hm1 ⊢
    obtain ⟨k, hk, hst⟩ := chain_loop_starts _ _ _ _ _ hm1
    exact ⟨k, hm1, hk, hst⟩

/-! ## Unbounded recursion in `execute_node.c` -/

theorem execute_node_first_child (fuel : Nat) :
    ∀ (node nxt : cmd_node_t) (after : List cmd_node_t) (name : List Char) (m : Machine),
      node.command = some name → is_builtin_command name = 0 → node.type = CMD_PIPE →
      m.tape = [] →
      ExecuteNode.execute_node fuel (node :: nxt :: after) m = Res.unfinished := by
  induction fuel with
  | zero => intro node nxt after name m _ _ _ _; rfl
  | succ fuel ih =>
    intro node nxt after name m hcmd hb htype htape
    obtain ⟨ctx, environ, tape, log⟩ := m
    simp only at htape
    subst htape
    rw [ExecuteNode.execute_node]
    simp only [hcmd, hb, htype, ne_eq, not_true_eq_false, if_false, reduceCtorEq,
      not_false_eq_true, and_self, if_true]
    simp only [ExecuteNode.execute_piped_commands_body, bind, Proc.bind, note, sys, reply.none]
    simp only [Int.reduceNeg, reduceCtorEq, if_false, lt_self_iff_false, if_true]
    exact ih node nxt after name _ hcmd hb htype rfl

/-- C26: for the external command `a` joined by `|` to `b`, on the path where
`pipe` succeeds and every `fork` returns `0` (the path of the first children),
`execute_node` never reaches a builtin call, an external execution or a return:
the child calls `execute_node` on the same node `a`, which calls
`execute_piped_commands` on `a` and `b` again, whatever the number of nested
calls allowed. -/
theorem execute_node_recursion_is_unbounded (fuel : Nat) :
    ExecuteNode.execute_node fuel [plain_node "a".toList CMD_PIPE, plain_node "b".toList CMD_SIMPLE]
      (sample_machine []) = Res.unfinished :=
  execute_node_first_child fuel (plain_node "a".toList CMD_PIPE)
    (plain_node "b".toList CMD_SIMPLE) [] "a".toList (sample_machine []) rfl (by decide) rfl rfl

/-! ## The linked chain -/

theorem add_all_append (l : List Nat) (n : Nat) :
    ∀ s, Linked.add_all (l ++ [n]) s =
      match Linked.add_all l s with
      | none => none
      | some s1 => Linked.add_command_to_chain s1.1 s1.2 (some n) := by
  induction l with
  | nil =>
    intro s
    simp only [List.nil_append, Linked.add_all]
    cases Linked.add_command_to_chain s.1 s.2 (some n) <;> rfl
  | cons a l ih =>
    intro s
    simp only [List.cons_append, Linked.add_all]
    cases Linked.add_command_to_chain s.1 s.2 (some a) with
    | none => rfl
    | some s1 => exact ih s1

theorem nodes_from_chained (heap : Linked.Heap) (l : List Nat) (h : Linked.chained heap l) :
    Linked.nodes_from l.length heap l.head? = some l := by
  induction l with
  | nil => rfl
  | cons a rest ih =>
    cases rest with
    | nil =>
      obtain ⟨c, hc, hnext⟩ := h
      simp [Linked.nodes_from, hc, hnext]
    | cons b rest =>
      obtain ⟨⟨c, hc, hnext⟩, hrest⟩ := h
      have := ih hrest
      simp only [List.length_cons, List.head?_cons] at this ⊢
      simp [Linked.nodes_from, hc, hnext, this]

theorem chained_snoc (heap : Linked.Heap) (l : List Nat) (t n : Nat) (c : Linked.cell)
    (hl : Linked.chained heap l) (hlast : l.getLast? = some t) (hn : n ∉ l)
    (hnodup : l.Nodup) (hc : heap t = some c)
    (hcn : ∃ cn, heap n = some cn ∧ cn.next = none) :
    Linked.chained (fun a => if a = t then some { node := c.node, next := some n } else heap a)
      (l ++ [n]) := by
  induction l with
  | nil => simp at hlast
  | cons a rest ih =>
    cases rest with
    | nil =>
      simp only [List.getLast?_singleton, Option.some.injEq] at hlast
      subst hlast
      have hna : n ≠ a := fun e => hn (by simp [e])
      simp only [List.nil_append, List.cons_append, Linked.chained, if_true, Option.some.injEq,
        hna, if_false]
      exact ⟨⟨_, rfl, rfl⟩, hcn⟩
    | cons b rest =>
      obtain ⟨⟨ca, hca, hnexta⟩, hrest⟩ := hl
      have hlast' : (b :: rest).getLast? = some t := by
        simpa [List.getLast?_cons_cons] using hlast
      have htmem : t ∈ b :: rest := List.mem_of_getLast?_eq_some hlast'
      have hnd := List.nodup_cons.mp hnodup
      have hat : a ≠ t := fun e => hnd.1 (e ▸ htmem)
      have ih' := ih hrest hlast' (fun e => hn (by simp [List.mem_cons] at e ⊢; tauto)) hnd.2
      simp only [List.cons_append, Linked.chained] at ih' ⊢
      refine ⟨⟨ca, ?_, hnexta⟩, ih'⟩
      simp [hat, hca]

/-- What holds of the memory and the chain after the nodes of a list were added
to an empty chain. -/
theorem add_all_spec (heap : Linked.Heap) (addrs : List Nat) (hdistinct : addrs.Nodup)
    (hcells : ∀ a ∈ addrs, ∃ c, heap a = some c ∧ c.next = none) :
    ∃ heap1 chain, Linked.add_all addrs (heap, Linked.create_command_chain) = some (heap1, chain) ∧
      Linked.chained heap1 addrs ∧
      chain.head = addrs.head? ∧ chain.tail = addrs.getLast? ∧ chain.count = addrs.length ∧
      (∀ a, (heap1 a).map Linked.cell.node = (heap a).map Linked.cell.node) ∧
      (∀ a, a ∉ addrs → heap1 a = heap a) := by
  induction addrs using List.reverseRecOn with
  | nil =>
    exact ⟨heap, Linked.create_command_chain, rfl, trivial, rfl, rfl, rfl, fun _ => rfl,
      fun _ _ => rfl⟩
  | append_singleton l n ih =>
    have hnd := List.nodup_append.mp hdistinct
    have hnl : n ∉ l := fun h => hnd.2.2 h (by simp)
    obtain ⟨heap1, chain, hadd, hch, hhead, htail, hcount, hnode, hframe⟩ :=
      ih hnd.1 (fun a ha => hcells a (by simp [ha]))
    obtain ⟨cn, hcn, hcnext⟩ := hcells n (by simp)
    have hn1 : heap1 n = heap n := hframe n hnl
    rw [add_all_append, hadd]
    simp only []
    cases l with
    | nil =>
      simp only [List.head?_nil, List.getLast?_nil] at hhead htail
      refine ⟨heap1, { head := some n, tail := some n, count := chain.count + 1 }, ?_, ?_, rfl,
        ?_, ?_, hnode, ?_⟩
      · simp [Linked.add_command_to_chain, hhead]
      · exact ⟨cn, by rw [hn1, hcn], hcnext⟩
      · simp
      · simp [hcount]
      · intro a ha
        exact hframe a (by simp)
    | cons b rest =>
      obtain ⟨t, ht⟩ : ∃ t, (b :: rest).getLast? = some t := by
        cases hg : (b :: rest).getLast? with
        | none => simp at hg
        | some t => exact ⟨t, rfl⟩
      have htmem : t ∈ b :: rest := List.mem_of_getLast?_eq_some ht
      obtain ⟨c0, hc0, _⟩ := hcells t (by simp only [List.mem_append]; exact Or.inl htmem)
      have hct : ∃ c, heap1 t = some c := by
        have := hnode t
        rw [hc0] at this
        cases h1 : heap1 t with
        | none => rw [h1] at this; simp at this
        | some c => exact ⟨c, rfl⟩
      obtain ⟨c, hc⟩ := hct
      simp only [List.head?_cons] at hhead
      rw [ht] at htail
      refine ⟨fun a => if a = t then some { node := c.node, next := some n } else heap1 a,
        { head := some b, tail := some n, count := chain.count + 1 }, ?_, ?_, ?_, ?_, ?_, ?_, ?_⟩
      · simp [Linked.add_command_to_chain, hhead, htail, hc]
      · exact chained_snoc heap1 (b :: rest) t n c hch ht hnl hnd.1 hc
          ⟨cn, by rw [hn1, hcn], hcnext⟩
      · simp
      · show some n = ((b :: rest) ++ [n]).getLast?
        rw [List.getLast?_append]
        simp
      · simp only [hcount, List.length_append, List.length_cons, List.length_nil]
        push_cast
        ring
      · intro a
        by_cases hat : a = t
        · subst hat
          simp only [if_true, Option.map_some']
          rw [← hnode a, hc]
          rfl
        · simp only [hat, if_false]
          exact hnode a
      · intro a ha
        have hat : a ≠ t := fun e => ha (by
          simp only [List.mem_append]
          exact Or.inl (e ▸ htmem))
        simp only [hat, if_false]
        exact hframe a (fun h => ha (by simp only [List.mem_append]; exact Or.inl h))

/-- C25: from the chain of `create_command_chain`, adding nodes at distinct
addresses whose `next` is `NULL` (as `create_cmd_node` leaves it) with
`add_command_to_chain` succeeds; the nodes met from `head` by following `next`
are then exactly the added nodes in the order of insertion, `head` is the
first and `tail` the last of them (both `NULL` when none was added), and
`count` is their number.  The fields of no node are changed, nodes outside the
chain are untouched, and one call changes no node but the old tail, of which
it changes the `next` link only; `create_cmd_node` yields a node with the
default fields and `next == NULL`. -/
theorem linked_chain_keeps_insertion_order (heap : Linked.Heap) (addrs : List Nat)
    (hdistinct : addrs.Nodup)
    (hcells : ∀ a ∈ addrs, ∃ c, heap a = some c ∧ c.next = none) :
    (∃ heap1 chain,
        Linked.add_all addrs (heap, Linked.create_command_chain) = some (heap1, chain) ∧
        Linked.nodes_from addrs.length heap1 chain.head = some addrs ∧
        chain.head = addrs.head? ∧ chain.tail = addrs.getLast? ∧ chain.count = addrs.length ∧
        (∀ a, (heap1 a).map Linked.cell.node = (heap a).map Linked.cell.node) ∧
        (∀ a, a ∉ addrs → heap1 a = heap a)) ∧
      (∀ (hp hp1 : Linked.Heap) (ch ch1 : Linked.chain_t) (n a : Nat),
        Linked.add_command_to_chain hp ch (some n) = some (hp1, ch1) →
        ((some a ≠ ch.tail → hp1 a = hp a) ∧
          (hp1 a).map Linked.cell.node = (hp a).map Linked.cell.node ∧
          ch1.tail = some n ∧ ch1.count = ch.count + 1)) ∧
      (∀ (hp : Linked.Heap) (a : Nat),
        Linked.create_cmd_node hp a a =
          some { node := create_cmd_node, next := none }) := by
  refine ⟨?_, ?_, ?_⟩
  · obtain ⟨heap1, chain, hadd, hch, hhead, htail, hcount, hnode, hframe⟩ :=
      add_all_spec heap addrs hdistinct hcells
    refine ⟨heap1, chain, hadd, ?_, hhead, htail, hcount, hnode, hframe⟩
    rw [hhead]
    exact nodes_from_chained heap1 addrs hch
  · intro hp hp1 ch ch1 n a hadd
    unfold Linked.add_command_to_chain at hadd
    simp only [] at hadd
    cases hh : ch.head with
    | none =>
      rw [hh] at hadd
      simp only [Option.some.injEq, Prod.mk.injEq] at hadd
      obtain ⟨h1, h2⟩ := hadd
      subst h1
      subst h2
      exact ⟨fun _ => rfl, rfl, rfl, rfl⟩
    | some hd =>
      rw [hh] at hadd
      simp only [] at hadd
      cases ht : ch.tail with
      | none => rw [ht] at hadd; simp at hadd
      | some t =>
        rw [ht] at hadd
        simp only [] at hadd
        cases hc : hp t with
        | none => rw [hc] at hadd; simp at hadd
        | some c =>
          rw [hc] at hadd
          simp only [Option.some.injEq, Prod.mk.injEq] at hadd
          obtain ⟨h1, h2⟩ := hadd
          subst h1
          subst h2
          refine ⟨?_, ?_, rfl, rfl⟩
          · intro hat
            have : a ≠ t := fun e => hat (by rw [e])
            simp [this]
          · by_cases hat : a = t
            · subst hat
              simp [hc]
            · simp [hat]
  · intro hp a
    simp [Linked.create_cmd_node]

/-- C25, on three nodes created at the addresses 10, 20 and 30 and added in the
order 20, 10, 30. -/
theorem linked_chain_keeps_insertion_order_witness :
    ∃ heap1 chain,
      Linked.add_all [20, 10, 30] (Linked.sample_heap, Linked.create_command_chain) =
        some (heap1, chain) ∧
      Linked.nodes_from 3 heap1 chain.head = some [20, 10, 30] ∧
      chain.head = some 20 ∧ chain.tail = some 30 ∧ chain.count = 3 :=
  have h := (linked_chain_keeps_insertion_order Linked.sample_heap [20, 10, 30] (by decide)
    (by
      intro a ha
      simp only [List.mem_cons, List.mem_singleton, List.not_mem_nil, or_false] at ha
      rcases ha with h | h | h <;> subst h <;>
        exact ⟨_, rfl, rfl⟩)).1
  match h with
  | ⟨heap1, chain, h1, h2, h3, h4, h5, _, _⟩ => ⟨heap1, chain, h1, h2, h3, h4, h5⟩

/-! ## Lines with a stray operator -/

end Minishell
